import Mathlib

set_option linter.unusedVariables false
set_option maxRecDepth 4096

/-!
Shallow embedding of the tilegraphics tile-based rendering engine and proofs
about its color codec, rectangle invalidation, line rasterizer, layer
compositing, tile pool and dirty-grid flush driver.
-/

/-- TileSize from engine.go: the edge length, in pixels, of one tile. -/
def TileSize : Int := 8

/-- An 8-bit channel value (Go uint8). -/
abbrev Byte := Fin 256

/-- Truncation of a nonnegative machine integer to uint8, as Go uint8(x). -/
def toByte (n : Nat) : Byte := ⟨n % 256, Nat.mod_lt _ (by omega)⟩

/-- Truncation of a signed machine integer to uint8 (two's complement low byte). -/
def byteOfInt (z : Int) : Byte := ⟨(z % 256).toNat, by omega⟩

/-- image/color RGBA as used by the engine: four 8-bit components. -/
structure RGBA where
  r : Byte
  g : Byte
  b : Byte
  a : Byte
deriving DecidableEq, Repr

/-- decodeGamma from the source: decode an 8-bit gamma-encoded value by squaring
it (gamma 2.0 approximation), giving a uint32 linear intensity. -/
def decodeGamma (component : Byte) : Nat := component.val * component.val

/-- encodeGamma from the source: the zero input is special-cased to zero (to
avoid division by zero); otherwise five Newton-Raphson integer square root
rounds starting from the seed value 32, truncated to uint8. -/
def encodeGamma (x : Nat) : Byte :=
  if x = 0 then 0
  else
    let a1 := (32 + x / 32) / 2
    let a2 := (a1 + x / a1) / 2
    let a3 := (a2 + x / a2) / 2
    let a4 := (a3 + x / a3) / 2
    let a5 := (a4 + x / a4) / 2
    toByte a5

/-- Blend from the source: gamma-correct blending of a semi-transparent top
color over a fully opaque bottom color, in integer arithmetic. -/
def Blend (bottom top : RGBA) : RGBA where
  r := encodeGamma (decodeGamma bottom.r * (255 - top.a.val) / 255 + decodeGamma top.r)
  g := encodeGamma (decodeGamma bottom.g * (255 - top.a.val) / 255 + decodeGamma top.g)
  b := encodeGamma (decodeGamma bottom.b * (255 - top.a.val) / 255 + decodeGamma top.b)
  a := ⟨255, by omega⟩

/-- ApplyAlpha from the source: scale a color's opacity down further by
alpha/256 per channel, gamma-correctly. -/
def ApplyAlpha (c : RGBA) (alpha : Byte) : RGBA where
  r := encodeGamma (decodeGamma c.r * alpha.val / 256)
  g := encodeGamma (decodeGamma c.g * alpha.val / 256)
  b := encodeGamma (decodeGamma c.b * alpha.val / 256)
  a := toByte (c.a.val * alpha.val / 256)

/-- The per-channel blend formula as the specification states it:
encodeGamma(decodeGamma(bottom.channel) * (255 - top.alpha) / 255 + decodeGamma(top.channel)),
stated here on raw channel values for comparison with the Blend of the source. -/
def blendChannelSpec (bottomC topC topA : Byte) : Nat :=
  decodeGamma bottomC * (255 - topA.val) / 255 + decodeGamma topC

/-- C3: for every n in 0..255, encodeGamma (decodeGamma n) = n, where
decodeGamma squares its input and encodeGamma is the fixed-iteration
Newton-Raphson integer square root from seed 32; in particular
encodeGamma 0 = 0 through the zero special case. -/
theorem gamma_roundtrip :
    (∀ n : Byte, encodeGamma (decodeGamma n) = n) ∧ encodeGamma 0 = 0 := by
  exact ⟨by decide, by decide⟩

/-- C4: Blend returns, per RGB channel, exactly
encodeGamma(decodeGamma(bottom.channel) * (255 - top.alpha) / 255 + decodeGamma(top.channel))
in integer arithmetic, with alpha always 255; at bottom=(255,0,0,255),
top=(0,128,0,128) the result is the bytes (179,128,0,255) of that formula. -/
theorem blend_formula :
    (∀ bottom top : RGBA,
        Blend bottom top =
          ⟨encodeGamma (blendChannelSpec bottom.r top.r top.a),
           encodeGamma (blendChannelSpec bottom.g top.g top.a),
           encodeGamma (blendChannelSpec bottom.b top.b top.a),
           ⟨255, by omega⟩⟩) ∧
    (∀ bottom top : RGBA, (Blend bottom top).a.val = 255) ∧
    Blend ⟨255, 0, 0, 255⟩ ⟨0, 128, 0, 128⟩ = ⟨179, 128, 0, 255⟩ := by
  refine ⟨fun bottom top => rfl, fun bottom top => rfl, by decide⟩

/-- Wrap of a mathematical integer into int16 two's complement, as Go int16
overflow behaves. -/
def w16 (z : Int) : Int := (z + 32768) % 65536 - 32768

theorem w16_eq {z : Int} (h1 : -32768 ≤ z) (h2 : z < 32768) : w16 z = z := by
  unfold w16; omega

/-- A rectangle's stored coordinates (x1,y1,x2,y2); x2 and y2 lie just outside
the covered pixels (half-open convention of objects.go). -/
structure Box where
  x1 : Int
  y1 : Int
  x2 : Int
  y2 : Int
deriving DecidableEq, Repr

/-- Membership of the pixel (px, py) in a half-open box. -/
def inBox (b : Box) (px py : Int) : Prop :=
  b.x1 ≤ px ∧ px < b.x2 ∧ b.y1 ≤ py ∧ py < b.y2

instance (b : Box) (px py : Int) : Decidable (inBox b px py) := by
  unfold inBox; infer_instance

/-- Membership of the pixel (px, py) in the union of a list of boxes. -/
def coveredBy : List Box → Int → Int → Prop
  | [], _, _ => False
  | b :: rest, px, py => inBox b px py ∨ coveredBy rest px py

/-- invalidateMiddleBlock from object-rectangle.go: the two x coordinates might
be swapped, so sort them before invalidating. -/
def invalidateMiddleBlock (xA maxY1 xB minY2 : Int) : Box :=
  if xA > xB then ⟨xB, maxY1, xA, minY2⟩ else ⟨xA, maxY1, xB, minY2⟩

/-- The up-to-four blocks invalidated by the overlapping branch of
Rectangle.Move, in call order: left, right, top, bottom. -/
def moveXorBlocks (r n : Box) : List Box :=
  let maxY1 := max r.y1 n.y1
  let minY2 := min r.y2 n.y2
  (if n.x1 ≠ r.x1 then [invalidateMiddleBlock n.x1 maxY1 r.x1 minY2] else []) ++
  (if n.x2 ≠ r.x2 then [invalidateMiddleBlock n.x2 maxY1 r.x2 minY2] else []) ++
  (if n.y1 ≠ r.y1 then
    [if n.y1 > r.y1 then (⟨r.x1, r.y1, r.x2, n.y1⟩ : Box) else ⟨n.x1, n.y1, n.x2, r.y1⟩]
   else []) ++
  (if n.y2 ≠ r.y2 then
    [if n.y2 > r.y2 then (⟨n.x1, r.y2, n.x2, n.y2⟩ : Box) else ⟨r.x1, n.y2, r.x2, r.y2⟩]
   else [])

/-- The new stored coordinates after Rectangle.Move(x, y, width, height). -/
def moveNewBox (x y width height : Int) : Box :=
  ⟨x, y, w16 (x + width), w16 (y + height)⟩

/-- The boxes passed to Rectangle.invalidate by Rectangle.Move, in call order. -/
def moveCalls (r : Box) (x y width height : Int) : List Box :=
  let n := moveNewBox x y width height
  if x > r.x2 ∨ y > r.y2 ∨ n.x2 < r.x1 ∨ n.y2 < r.y1 then [r, n]
  else moveXorBlocks r n

set_option maxHeartbeats 3200000 in
theorem moveXorBlocks_covers (r n : Box)
    (hx12 : r.x1 ≤ r.x2) (hy12 : r.y1 ≤ r.y2)
    (hnx : n.x1 ≤ n.x2) (hny : n.y1 ≤ n.y2)
    (h1 : n.x1 ≤ r.x2) (h2 : n.y1 ≤ r.y2) (h3 : r.x1 ≤ n.x2) (h4 : r.y1 ≤ n.y2) :
    ∀ px py : Int,
      coveredBy (moveXorBlocks r n) px py ↔
        ((inBox r px py ∧ ¬ inBox n px py) ∨ (inBox n px py ∧ ¬ inBox r px py)) := by
  intro px py
  unfold moveXorBlocks invalidateMiddleBlock
  split_ifs <;>
    simp only [List.cons_append, List.nil_append, List.append_nil, coveredBy, inBox,
      or_false, false_or, false_iff, iff_false] <;>
    omega

theorem moveCalls_eq (r : Box) (x y width height : Int) :
    moveCalls r x y width height =
      if x > r.x2 ∨ y > r.y2 ∨ w16 (x + width) < r.x1 ∨ w16 (y + height) < r.y1 then
        [r, moveNewBox x y width height]
      else moveXorBlocks r (moveNewBox x y width height) := rfl

/-- C1 (amended): Rectangle.Move commits the new coordinates; when the strict
separation test of the code holds (all four comparisons strict, so exactly
touching boxes fail it) it makes exactly two invalidation calls, one on the old
box and one on the new box; otherwise the union of the up-to-four invalidated
strips equals exactly the symmetric difference of the old and new pixel sets. -/
theorem move_invalidates_xor (r : Box) (x y width height : Int)
    (hxw1 : -32768 ≤ x + width) (hxw2 : x + width < 32768)
    (hyh1 : -32768 ≤ y + height) (hyh2 : y + height < 32768)
    (hx12 : r.x1 ≤ r.x2) (hy12 : r.y1 ≤ r.y2) (hw : 0 ≤ width) (hh : 0 ≤ height) :
    moveNewBox x y width height = ⟨x, y, x + width, y + height⟩ ∧
    ((x > r.x2 ∨ y > r.y2 ∨ x + width < r.x1 ∨ y + height < r.y1) →
      moveCalls r x y width height = [r, moveNewBox x y width height]) ∧
    (¬(x > r.x2 ∨ y > r.y2 ∨ x + width < r.x1 ∨ y + height < r.y1) →
      ∀ px py : Int,
        coveredBy (moveCalls r x y width height) px py ↔
          ((inBox r px py ∧ ¬ inBox (moveNewBox x y width height) px py) ∨
           (inBox (moveNewBox x y width height) px py ∧ ¬ inBox r px py))) := by
  have e1 : w16 (x + width) = x + width := w16_eq hxw1 hxw2
  have e2 : w16 (y + height) = y + height := w16_eq hyh1 hyh2
  have hbox : moveNewBox x y width height = ⟨x, y, x + width, y + height⟩ := by
    unfold moveNewBox; rw [e1, e2]
  refine ⟨hbox, ?_, ?_⟩
  · intro h
    rw [moveCalls_eq, e1, e2, if_pos h]
  · intro h px py
    rw [moveCalls_eq, e1, e2, if_neg h, hbox]
    exact moveXorBlocks_covers r ⟨x, y, x + width, y + height⟩ hx12 hy12
      (by dsimp only; omega) (by dsimp only; omega) (by dsimp only; omega)
      (by dsimp only; omega) (by dsimp only; omega) (by dsimp only; omega) px py

/-- C1 (witness): the amended theorem at the concrete move of (0,0,5,5) to
x=2, y=3, width=5, height=4. -/
theorem move_invalidates_xor_witness :
    moveNewBox 2 3 5 4 = ⟨2, 3, 2 + 5, 3 + 4⟩ ∧
    (((2 : Int) > (5 : Int) ∨ (3 : Int) > (5 : Int) ∨ (2 : Int) + 5 < 0 ∨ (3 : Int) + 4 < 0) →
      moveCalls ⟨0, 0, 5, 5⟩ 2 3 5 4 = [⟨0, 0, 5, 5⟩, moveNewBox 2 3 5 4]) ∧
    (¬((2 : Int) > (5 : Int) ∨ (3 : Int) > (5 : Int) ∨ (2 : Int) + 5 < 0 ∨ (3 : Int) + 4 < 0) →
      ∀ px py : Int,
        coveredBy (moveCalls ⟨0, 0, 5, 5⟩ 2 3 5 4) px py ↔
          ((inBox ⟨0, 0, 5, 5⟩ px py ∧ ¬ inBox (moveNewBox 2 3 5 4) px py) ∨
           (inBox (moveNewBox 2 3 5 4) px py ∧ ¬ inBox ⟨0, 0, 5, 5⟩ px py))) :=
  move_invalidates_xor ⟨0, 0, 5, 5⟩ 2 3 5 4 (by decide) (by decide) (by decide) (by decide)
    (by decide) (by decide) (by decide) (by decide)

/-- C1 (counterexample): the old box (0,0,5,5) is moved to x=5, y=5, width=5,
height=5. The old and new boxes share no pixel (they only touch at the corner),
yet Rectangle.Move takes the overlapping branch and makes four invalidation
calls, not the two calls on the old and the new box that the claim requires. -/
theorem move_touching_counterexample :
    (∀ px py : Int, ¬ (inBox ⟨0, 0, 5, 5⟩ px py ∧ inBox ⟨5, 5, 10, 10⟩ px py)) ∧
    moveNewBox 5 5 5 5 = ⟨5, 5, 10, 10⟩ ∧
    (moveCalls ⟨0, 0, 5, 5⟩ 5 5 5 5).length = 4 := by
  refine ⟨?_, by decide, by decide⟩
  intro px py h
  simp only [inBox] at h
  omega

/-- A tile's pixel contents, addressed by tile-local (x, y) like the row-major
t[x + y*TileSize] of engine.go. -/
def PixMap := Int → Int → RGBA

/-- Write one pixel of a tile. -/
def upd (t : PixMap) (x y : Int) (c : RGBA) : PixMap :=
  fun a b => if a = x ∧ b = y then c else t a b

def rectPaintCol (c : RGBA) (x : Int) : Int → Nat → PixMap → PixMap
  | _, 0, t => t
  | yy, n + 1, t => rectPaintCol c x (yy + 1) n (upd t x yy c)

def rectPaintCols (c : RGBA) (y1 : Int) (ny : Nat) : Int → Nat → PixMap → PixMap
  | _, 0, t => t
  | xx, n + 1, t => rectPaintCols c y1 ny (xx + 1) n (rectPaintCol c xx y1 ny t)

/-- Rectangle.paint from the source: translate into tile-local coordinates by
subtracting the tile origin, clip to [0,TileSize) on both axes, and fill the
clipped span with the stored color (no blending, whatever the alpha). -/
def rectanglePaint (r : Box) (c : RGBA) (t : PixMap) (tileX tileY : Int) : PixMap :=
  let x1 := max (w16 (r.x1 - tileX)) 0
  let y1 := max (w16 (r.y1 - tileY)) 0
  let x2 := min (w16 (r.x2 - tileX)) 8
  let y2 := min (w16 (r.y2 - tileY)) 8
  rectPaintCols c y1 (y2 - y1).toNat x1 (x2 - x1).toNat t

theorem rectPaintCol_apply (c : RGBA) (x : Int) (y0 : Int) (n : Nat) (t : PixMap)
    (px py : Int) :
    rectPaintCol c x y0 n t px py =
      if px = x ∧ y0 ≤ py ∧ py < y0 + n then c else t px py := by
  induction n generalizing y0 t with
  | zero =>
    rw [rectPaintCol, if_neg]
    push_cast
    omega
  | succ n ih =>
    rw [rectPaintCol, ih]
    unfold upd
    split_ifs <;> first | rfl | (push_cast at *; omega)

theorem rectPaintCols_apply (c : RGBA) (y0 : Int) (ny : Nat) (x0 : Int) (nx : Nat)
    (t : PixMap) (px py : Int) :
    rectPaintCols c y0 ny x0 nx t px py =
      if x0 ≤ px ∧ px < x0 + nx ∧ y0 ≤ py ∧ py < y0 + ny then c else t px py := by
  induction nx generalizing x0 t with
  | zero =>
    rw [rectPaintCols, if_neg]
    push_cast
    omega
  | succ n ih =>
    rw [rectPaintCols, ih, rectPaintCol_apply]
    split_ifs <;> first | rfl | (push_cast at *; omega)

theorem rectanglePaint_apply (r : Box) (c : RGBA) (t : PixMap) (tileX tileY : Int)
    (px py : Int)
    (hb1 : -32768 ≤ r.x1 - tileX) (hb2 : r.x1 - tileX < 32768)
    (hb3 : -32768 ≤ r.x2 - tileX) (hb4 : r.x2 - tileX < 32768)
    (hb5 : -32768 ≤ r.y1 - tileY) (hb6 : r.y1 - tileY < 32768)
    (hb7 : -32768 ≤ r.y2 - tileY) (hb8 : r.y2 - tileY < 32768) :
    rectanglePaint r c t tileX tileY px py =
      if max (r.x1 - tileX) 0 ≤ px ∧ px < min (r.x2 - tileX) 8 ∧
         max (r.y1 - tileY) 0 ≤ py ∧ py < min (r.y2 - tileY) 8 then c
      else t px py := by
  unfold rectanglePaint
  rw [w16_eq hb1 hb2, w16_eq hb3 hb4, w16_eq hb5 hb6, w16_eq hb7 hb8,
    rectPaintCols_apply]
  split_ifs <;> first | rfl | omega

/-- Wrap of a mathematical integer into int32 two's complement, as Go int32
overflow behaves. -/
def w32 (z : Int) : Int := (z + 2147483648) % 4294967296 - 2147483648

theorem w32_eq {z : Int} (h1 : -2147483648 ≤ z) (h2 : z < 2147483648) : w32 z = z := by
  unfold w32; omega

/-- The uint8 complement 255 - w used for the floor pixel weight. -/
def byteNeg (w : Byte) : Byte := ⟨255 - w.val, by omega⟩

/-- A Line between two endpoints (both inclusive), with a color; NewLine
normalizes the endpoints so that x1 is never greater than x2. -/
structure Line where
  x1 : Int
  y1 : Int
  x2 : Int
  y2 : Int
  color : RGBA

/-- Line.paintPixel from the source: blend the color weighted by ApplyAlpha
into the tile, skipping coordinates outside the tile. -/
def paintPixel (c : RGBA) (t : PixMap) (x y : Int) (weight : Byte) : PixMap :=
  if 0 ≤ x ∧ x < 8 ∧ 0 ≤ y ∧ y < 8 then
    upd t x y (Blend (t x y) (ApplyAlpha c weight))
  else t

theorem paintPixel_apply (c : RGBA) (t : PixMap) (x y : Int) (w : Byte) (a b : Int) :
    paintPixel c t x y w a b =
      if a = x ∧ b = y ∧ 0 ≤ x ∧ x < 8 ∧ 0 ≤ y ∧ y < 8 then
        Blend (t a b) (ApplyAlpha c w)
      else t a b := by
  unfold paintPixel upd
  by_cases hg : 0 ≤ x ∧ x < 8 ∧ 0 ≤ y ∧ y < 8
  · rw [if_pos hg]
    by_cases he : a = x ∧ b = y
    · rw [if_pos he, if_pos ⟨he.1, he.2, hg.1, hg.2.1, hg.2.2.1, hg.2.2.2⟩, he.1, he.2]
    · rw [if_neg he, if_neg]
      tauto
  · rw [if_neg hg, if_neg]
    tauto

/-- The fast-path loop of the vertical-span case of Line.paint: the fully
opaque color is painted directly into the tile. -/
def vSpanFast (c : RGBA) (x : Int) : Int → Nat → PixMap → PixMap
  | _, 0, t => t
  | yy, n + 1, t => vSpanFast c x (yy + 1) n (upd t x yy c)

/-- The slow-path loop of the vertical-span case of Line.paint: each pixel is
blended with the tile contents. -/
def vSpanBlend (c : RGBA) (x : Int) : Int → Nat → PixMap → PixMap
  | _, 0, t => t
  | yy, n + 1, t => vSpanBlend c x (yy + 1) n (upd t x yy (Blend (t x yy) c))

/-- The fast-path loop of the horizontal-span case of Line.paint. -/
def hSpanFast (c : RGBA) (y : Int) : Int → Nat → PixMap → PixMap
  | _, 0, t => t
  | xx, n + 1, t => hSpanFast c y (xx + 1) n (upd t xx y c)

/-- The slow-path loop of the horizontal-span case of Line.paint. -/
def hSpanBlend (c : RGBA) (y : Int) : Int → Nat → PixMap → PixMap
  | _, 0, t => t
  | xx, n + 1, t => hSpanBlend c y (xx + 1) n (upd t xx y (Blend (t xx y) c))

/-- The Wu loop of Line.paint for a more-horizontal line: at each x the minor
position is freshly computed as int32(x-xStart) * yIncrementQ16, the floor
pixel painted with weight 255-frac and the ceil pixel with weight frac. -/
def wuLoopH (c : RGBA) (xStart y1 inc : Int) : Int → Nat → PixMap → PixMap
  | _, 0, t => t
  | x, n + 1, t =>
      wuLoopH c xStart y1 inc (x + 1) n
        (paintPixel c
          (paintPixel c t x
            (w16 (y1 + w16 ((w32 (w16 (x - xStart) * inc)) / 65536)))
            (byteNeg (byteOfInt ((w32 (w16 (x - xStart) * inc)) / 256))))
          x
          (w16 (w16 (y1 + w16 ((w32 (w16 (x - xStart) * inc)) / 65536)) + 1))
          (byteOfInt ((w32 (w16 (x - xStart) * inc)) / 256)))

/-- The Wu loop of Line.paint for a more-vertical line. -/
def wuLoopV (c : RGBA) (yStart x1 inc : Int) : Int → Nat → PixMap → PixMap
  | _, 0, t => t
  | y, n + 1, t =>
      wuLoopV c yStart x1 inc (y + 1) n
        (paintPixel c
          (paintPixel c t
            (w16 (x1 + w16 ((w32 (w16 (y - yStart) * inc)) / 65536)))
            y
            (byteNeg (byteOfInt ((w32 (w16 (y - yStart) * inc)) / 256))))
          (w16 (w16 (x1 + w16 ((w32 (w16 (y - yStart) * inc)) / 65536)) + 1))
          y
          (byteOfInt ((w32 (w16 (y - yStart) * inc)) / 256)))

/-- Line.paint from the source: the pure vertical case, the pure horizontal
case, and the adapted Wu antialiasing split on the dominant axis. -/
def linePaint (l : Line) (t : PixMap) (tileX tileY : Int) : PixMap :=
  if l.x1 = l.x2 then
    let x := w16 (l.x1 - tileX)
    let y1l := w16 (min l.y1 l.y2 - tileY)
    let y2l := w16 (max l.y1 l.y2 - tileY)
    if x < 0 ∨ 8 ≤ x then t
    else if l.color.a.val = 255 then
      vSpanFast l.color x (max y1l 0) (min y2l 7 - max y1l 0 + 1).toNat t
    else
      vSpanBlend l.color x (max y1l 0) (min y2l 7 - max y1l 0 + 1).toNat t
  else if l.y1 = l.y2 then
    let y := w16 (l.y1 - tileY)
    let x1l := w16 (min l.x1 l.x2 - tileX)
    let x2l := w16 (max l.x1 l.x2 - tileX)
    if y < 0 ∨ 8 ≤ y then t
    else if l.color.a.val = 255 then
      hSpanFast l.color y (max x1l 0) (min x2l 7 - max x1l 0 + 1).toNat t
    else
      hSpanBlend l.color y (max x1l 0) (min x2l 7 - max x1l 0 + 1).toNat t
  else
    let x1l := w16 (l.x1 - tileX)
    let x2l := w16 (l.x2 - tileX)
    let y1l := w16 (l.y1 - tileY)
    let y2l := w16 (l.y2 - tileY)
    let width := w16 (l.x2 - l.x1)
    let height0 := w16 (l.y2 - l.y1)
    let height := if height0 < 0 then w16 (-height0) else height0
    if width > height then
      wuLoopH l.color x1l y1l
        (Int.tdiv (w32 (w16 (y2l - y1l) * 65536)) (w16 (x2l - x1l)))
        (max x1l 0) (min x2l 7 - max x1l 0 + 1).toNat t
    else if y1l > y2l then
      wuLoopV l.color y2l x2l
        (Int.tdiv (w32 (w16 (x1l - x2l) * 65536)) (w16 (y1l - y2l)))
        (max y2l 0) (min y1l 7 - max y2l 0 + 1).toNat t
    else
      wuLoopV l.color y1l x1l
        (Int.tdiv (w32 (w16 (x2l - x1l) * 65536)) (w16 (y2l - y1l)))
        (max y1l 0) (min y2l 7 - max y1l 0 + 1).toNat t

/-- The end-to-end rasterization of a general line as the specification
describes it: the dominant axis is the one with larger delta; each step freshly
multiplies the step index by the Q15.16 minor increment; the floor pixel gets
coverage weight 255 - fractionalPart and the ceil pixel gets fractionalPart.
The result is the coverage weight the rasterizer assigns to the absolute pixel
(X, Y), if any. -/
def lineCoverage (l : Line) (X Y : Int) : Option Byte :=
  if l.x2 - l.x1 > ((l.y2 - l.y1).natAbs : Int) then
    if l.x1 ≤ X ∧ X ≤ l.x2 then
      let q := (X - l.x1) * Int.tdiv ((l.y2 - l.y1) * 65536) (l.x2 - l.x1)
      if Y = l.y1 + q / 65536 then some (byteNeg (byteOfInt (q / 256)))
      else if Y = l.y1 + q / 65536 + 1 then some (byteOfInt (q / 256))
      else none
    else none
  else if l.y1 > l.y2 then
    if l.y2 ≤ Y ∧ Y ≤ l.y1 then
      let q := (Y - l.y2) * Int.tdiv ((l.x1 - l.x2) * 65536) (l.y1 - l.y2)
      if X = l.x2 + q / 65536 then some (byteNeg (byteOfInt (q / 256)))
      else if X = l.x2 + q / 65536 + 1 then some (byteOfInt (q / 256))
      else none
    else none
  else
    if l.y1 ≤ Y ∧ Y ≤ l.y2 then
      let q := (Y - l.y1) * Int.tdiv ((l.x2 - l.x1) * 65536) (l.y2 - l.y1)
      if X = l.x1 + q / 65536 then some (byteNeg (byteOfInt (q / 256)))
      else if X = l.x1 + q / 65536 + 1 then some (byteOfInt (q / 256))
      else none
    else none

theorem wuLoopH_apply (c : RGBA) (xStart y1 inc : Int) (x0 : Int) (n : Nat) (t : PixMap)
    (px py : Int)
    (hpx0 : 0 ≤ px) (hpx8 : px < 8) (hpy0 : 0 ≤ py) (hpy8 : py < 8)
    (hxsle : xStart ≤ x0) (hoff : x0 + n - xStart ≤ 16384)
    (hinc : inc.natAbs ≤ 65536) (hy1 : y1.natAbs ≤ 16320) :
    wuLoopH c xStart y1 inc x0 n t px py =
      if x0 ≤ px ∧ px < x0 + n then
        if py = y1 + ((px - xStart) * inc) / 65536 then
          Blend (t px py)
            (ApplyAlpha c (byteNeg (byteOfInt (((px - xStart) * inc) / 256))))
        else if py = y1 + ((px - xStart) * inc) / 65536 + 1 then
          Blend (t px py) (ApplyAlpha c (byteOfInt (((px - xStart) * inc) / 256)))
        else t px py
      else t px py := by
  induction n generalizing x0 t with
  | zero =>
    rw [wuLoopH, if_neg (by push_cast; omega)]
  | succ n ih =>
    rw [wuLoopH]
    have hA : w16 (x0 - xStart) = x0 - xStart := w16_eq (by omega) (by push_cast at hoff; omega)
    rw [hA]
    have hqabs : ((x0 - xStart) * inc).natAbs ≤ 1073741824 := by
      rw [Int.natAbs_mul]
      have hstep : (x0 - xStart).natAbs ≤ 16384 := by push_cast at hoff; omega
      calc (x0 - xStart).natAbs * inc.natAbs ≤ 16384 * 65536 := Nat.mul_le_mul hstep hinc
        _ = 1073741824 := by norm_num
    have hB : w32 ((x0 - xStart) * inc) = (x0 - xStart) * inc := w32_eq (by omega) (by omega)
    rw [hB]
    have hC : w16 (((x0 - xStart) * inc) / 65536) =
        ((x0 - xStart) * inc) / 65536 := w16_eq (by omega) (by omega)
    rw [hC]
    have hD : w16 (y1 + ((x0 - xStart) * inc) / 65536) =
        y1 + ((x0 - xStart) * inc) / 65536 := w16_eq (by omega) (by omega)
    rw [hD]
    have hE : w16 (y1 + ((x0 - xStart) * inc) / 65536 + 1) =
        y1 + ((x0 - xStart) * inc) / 65536 + 1 := w16_eq (by omega) (by omega)
    rw [hE]
    rw [ih _ _ (by omega) (by push_cast at hoff ⊢; omega)]
    by_cases hx : px = x0
    · subst hx
      rw [if_neg (by omega), if_pos (by push_cast; omega)]
      simp only [paintPixel_apply, eq_self_iff_true, true_and]
      split_ifs <;> first | rfl | omega
    · have hbase :
          paintPixel c
            (paintPixel c t x0 (y1 + ((x0 - xStart) * inc) / 65536)
              (byteNeg (byteOfInt (((x0 - xStart) * inc) / 256))))
            x0 (y1 + ((x0 - xStart) * inc) / 65536 + 1)
            (byteOfInt (((x0 - xStart) * inc) / 256)) px py = t px py := by
        rw [paintPixel_apply, if_neg (fun h => hx h.1), paintPixel_apply,
          if_neg (fun h => hx h.1)]
      rw [hbase]
      by_cases hin : x0 + 1 ≤ px ∧ px < x0 + 1 + (n : Int)
      · conv_lhs => rw [if_pos hin]
        conv_rhs => rw [if_pos (show x0 ≤ px ∧ px < x0 + ((n : Nat) + 1 : Nat) by
          push_cast at hin ⊢; omega)]
      · conv_lhs => rw [if_neg hin]
        conv_rhs => rw [if_neg (show ¬(x0 ≤ px ∧ px < x0 + ((n : Nat) + 1 : Nat)) by
          push_cast at hin ⊢; omega)]

theorem wuLoopV_apply (c : RGBA) (yStart x1 inc : Int) (y0 : Int) (n : Nat) (t : PixMap)
    (px py : Int)
    (hpx0 : 0 ≤ px) (hpx8 : px < 8) (hpy0 : 0 ≤ py) (hpy8 : py < 8)
    (hysle : yStart ≤ y0) (hoff : y0 + n - yStart ≤ 16384)
    (hinc : inc.natAbs ≤ 65536) (hx1 : x1.natAbs ≤ 16320) :
    wuLoopV c yStart x1 inc y0 n t px py =
      if y0 ≤ py ∧ py < y0 + n then
        if px = x1 + ((py - yStart) * inc) / 65536 then
          Blend (t px py)
            (ApplyAlpha c (byteNeg (byteOfInt (((py - yStart) * inc) / 256))))
        else if px = x1 + ((py - yStart) * inc) / 65536 + 1 then
          Blend (t px py) (ApplyAlpha c (byteOfInt (((py - yStart) * inc) / 256)))
        else t px py
      else t px py := by
  induction n generalizing y0 t with
  | zero =>
    rw [wuLoopV, if_neg (by push_cast; omega)]
  | succ n ih =>
    rw [wuLoopV]
    have hA : w16 (y0 - yStart) = y0 - yStart := w16_eq (by omega) (by push_cast at hoff; omega)
    rw [hA]
    have hqabs : ((y0 - yStart) * inc).natAbs ≤ 1073741824 := by
      rw [Int.natAbs_mul]
      have hstep : (y0 - yStart).natAbs ≤ 16384 := by push_cast at hoff; omega
      calc (y0 - yStart).natAbs * inc.natAbs ≤ 16384 * 65536 := Nat.mul_le_mul hstep hinc
        _ = 1073741824 := by norm_num
    have hB : w32 ((y0 - yStart) * inc) = (y0 - yStart) * inc := w32_eq (by omega) (by omega)
    rw [hB]
    have hC : w16 (((y0 - yStart) * inc) / 65536) =
        ((y0 - yStart) * inc) / 65536 := w16_eq (by omega) (by omega)
    rw [hC]
    have hD : w16 (x1 + ((y0 - yStart) * inc) / 65536) =
        x1 + ((y0 - yStart) * inc) / 65536 := w16_eq (by omega) (by omega)
    rw [hD]
    have hE : w16 (x1 + ((y0 - yStart) * inc) / 65536 + 1) =
        x1 + ((y0 - yStart) * inc) / 65536 + 1 := w16_eq (by omega) (by omega)
    rw [hE]
    rw [ih _ _ (by omega) (by push_cast at hoff ⊢; omega)]
    by_cases hy : py = y0
    · subst hy
      rw [if_neg (by omega), if_pos (by push_cast; omega)]
      simp only [paintPixel_apply, eq_self_iff_true, true_and, and_true]
      split_ifs <;> first | rfl | omega
    · have hbase :
          paintPixel c
            (paintPixel c t (x1 + ((y0 - yStart) * inc) / 65536) y0
              (byteNeg (byteOfInt (((y0 - yStart) * inc) / 256))))
            (x1 + ((y0 - yStart) * inc) / 65536 + 1) y0
            (byteOfInt (((y0 - yStart) * inc) / 256)) px py = t px py := by
        rw [paintPixel_apply, if_neg (fun h => hy h.2.1), paintPixel_apply,
          if_neg (fun h => hy h.2.1)]
      rw [hbase]
      by_cases hin : y0 + 1 ≤ py ∧ py < y0 + 1 + (n : Int)
      · conv_lhs => rw [if_pos hin]
        conv_rhs => rw [if_pos (show y0 ≤ py ∧ py < y0 + ((n : Nat) + 1 : Nat) by
          push_cast at hin ⊢; omega)]
      · conv_lhs => rw [if_neg hin]
        conv_rhs => rw [if_neg (show ¬(y0 ≤ py ∧ py < y0 + ((n : Nat) + 1 : Nat)) by
          push_cast at hin ⊢; omega)]

set_option maxHeartbeats 1600000 in
theorem linePaint_diag_apply (l : Line) (t : PixMap) (tileX tileY : Int) (px py : Int)
    (hb1 : l.x1.natAbs ≤ 4096) (hb2 : l.y1.natAbs ≤ 4096)
    (hb3 : l.x2.natAbs ≤ 4096) (hb4 : l.y2.natAbs ≤ 4096)
    (hbt1 : tileX.natAbs ≤ 4096) (hbt2 : tileY.natAbs ≤ 4096)
    (hxne : l.x1 ≠ l.x2) (hyne : l.y1 ≠ l.y2) (hnorm : l.x1 ≤ l.x2)
    (hpx0 : 0 ≤ px) (hpx8 : px < 8) (hpy0 : 0 ≤ py) (hpy8 : py < 8) :
    linePaint l t tileX tileY px py =
      match lineCoverage l (tileX + px) (tileY + py) with
      | some w => Blend (t px py) (ApplyAlpha l.color w)
      | none => t px py := by
  unfold linePaint
  rw [if_neg hxne, if_neg hyne]
  have e1 : w16 (l.x1 - tileX) = l.x1 - tileX := w16_eq (by omega) (by omega)
  have e2 : w16 (l.x2 - tileX) = l.x2 - tileX := w16_eq (by omega) (by omega)
  have e3 : w16 (l.y1 - tileY) = l.y1 - tileY := w16_eq (by omega) (by omega)
  have e4 : w16 (l.y2 - tileY) = l.y2 - tileY := w16_eq (by omega) (by omega)
  have e5 : w16 (l.x2 - l.x1) = l.x2 - l.x1 := w16_eq (by omega) (by omega)
  have e6 : w16 (l.y2 - l.y1) = l.y2 - l.y1 := w16_eq (by omega) (by omega)
  rw [e1, e2, e3, e4, e5, e6]
  have e7 : l.x2 - tileX - (l.x1 - tileX) = l.x2 - l.x1 := by ring
  have e8 : l.y2 - tileY - (l.y1 - tileY) = l.y2 - l.y1 := by ring
  have e9 : l.x1 - tileX - (l.x2 - tileX) = l.x1 - l.x2 := by ring
  have e10 : l.y1 - tileY - (l.y2 - tileY) = l.y1 - l.y2 := by ring
  rw [e7, e8, e9, e10]
  have e11 : w16 (l.x1 - l.x2) = l.x1 - l.x2 := w16_eq (by omega) (by omega)
  have e12 : w16 (l.y1 - l.y2) = l.y1 - l.y2 := w16_eq (by omega) (by omega)
  rw [e5, e6, e11, e12]
  have hneg : w16 (-(l.y2 - l.y1)) = -(l.y2 - l.y1) := w16_eq (by omega) (by omega)
  rw [hneg]
  have hh : (if l.y2 - l.y1 < 0 then -(l.y2 - l.y1) else l.y2 - l.y1) =
      ((l.y2 - l.y1).natAbs : Int) := by split_ifs <;> omega
  rw [hh]
  rw [lineCoverage]
  dsimp only
  by_cases hdom : l.x2 - l.x1 > ((l.y2 - l.y1).natAbs : Int)
  · rw [if_pos hdom, if_pos hdom]
    have hnum : ((l.y2 - l.y1) * 65536).natAbs ≤ 536870912 := by
      rw [Int.natAbs_mul]
      calc (l.y2 - l.y1).natAbs * (65536 : Int).natAbs ≤ 8192 * 65536 :=
        Nat.mul_le_mul (by omega) (by norm_num)
        _ = 536870912 := by norm_num
    have hw32 : w32 ((l.y2 - l.y1) * 65536) = (l.y2 - l.y1) * 65536 :=
      w32_eq (by omega) (by omega)
    rw [hw32]
    have hinc : (Int.tdiv ((l.y2 - l.y1) * 65536) (l.x2 - l.x1)).natAbs ≤ 65536 := by
      rw [Int.natAbs_tdiv, Int.natAbs_mul]
      calc (l.y2 - l.y1).natAbs * (65536 : Int).natAbs / (l.x2 - l.x1).natAbs ≤
          (l.x2 - l.x1).natAbs * 65536 / (l.x2 - l.x1).natAbs := by
            apply Nat.div_le_div_right
            have : (65536 : Int).natAbs = 65536 := by norm_num
            rw [this]
            exact Nat.mul_le_mul_right _ (by omega)
        _ = 65536 := Nat.mul_div_cancel_left _ (by omega)
    have hL := wuLoopH_apply l.color (l.x1 - tileX) (l.y1 - tileY)
      (Int.tdiv ((l.y2 - l.y1) * 65536) (l.x2 - l.x1)) (max (l.x1 - tileX) 0)
      ((min (l.x2 - tileX) 7 - max (l.x1 - tileX) 0 + 1).toNat) t px py
      hpx0 hpx8 hpy0 hpy8 (le_max_left _ _) (by omega) hinc (by omega)
    rw [hL]
    by_cases hX : l.x1 ≤ tileX + px ∧ tileX + px ≤ l.x2
    · conv_rhs => rw [if_pos hX]
      conv_lhs => rw [if_pos (show max (l.x1 - tileX) 0 ≤ px ∧
        px < max (l.x1 - tileX) 0 +
          ((min (l.x2 - tileX) 7 - max (l.x1 - tileX) 0 + 1).toNat : Int) by omega)]
      have hq : px - (l.x1 - tileX) = tileX + px - l.x1 := by ring
      rw [hq]
      by_cases hfl : tileY + py =
          l.y1 + (tileX + px - l.x1) * Int.tdiv ((l.y2 - l.y1) * 65536) (l.x2 - l.x1) / 65536
      · have hflL : py = l.y1 - tileY +
            (tileX + px - l.x1) * Int.tdiv ((l.y2 - l.y1) * 65536) (l.x2 - l.x1) / 65536 := by
          omega
        conv_rhs => rw [if_pos hfl]
        conv_lhs => rw [if_pos hflL]
      · by_cases hcl : tileY + py =
            l.y1 + (tileX + px - l.x1) * Int.tdiv ((l.y2 - l.y1) * 65536) (l.x2 - l.x1) / 65536 + 1
        · have hclL : py = l.y1 - tileY +
              (tileX + px - l.x1) * Int.tdiv ((l.y2 - l.y1) * 65536) (l.x2 - l.x1) / 65536 + 1 := by
            omega
          conv_rhs => rw [if_neg hfl, if_pos hcl]
          conv_lhs => rw [if_neg (by omega), if_pos hclL]
        · conv_rhs => rw [if_neg hfl, if_neg hcl]
          conv_lhs => rw [if_neg (by omega), if_neg (by omega)]
    · conv_rhs => rw [if_neg hX]
      conv_lhs => rw [if_neg (show ¬(max (l.x1 - tileX) 0 ≤ px ∧
        px < max (l.x1 - tileX) 0 +
          ((min (l.x2 - tileX) 7 - max (l.x1 - tileX) 0 + 1).toNat : Int)) by omega)]
  · rw [if_neg hdom, if_neg hdom]
    by_cases hyy : l.y1 - tileY > l.y2 - tileY
    · rw [if_pos hyy, if_pos (show l.y1 > l.y2 by omega)]
      have hnum : ((l.x1 - l.x2) * 65536).natAbs ≤ 536870912 := by
        rw [Int.natAbs_mul]
        calc (l.x1 - l.x2).natAbs * (65536 : Int).natAbs ≤ 8192 * 65536 :=
          Nat.mul_le_mul (by omega) (by norm_num)
          _ = 536870912 := by norm_num
      have hw32 : w32 ((l.x1 - l.x2) * 65536) = (l.x1 - l.x2) * 65536 :=
        w32_eq (by omega) (by omega)
      rw [hw32]
      have hinc : (Int.tdiv ((l.x1 - l.x2) * 65536) (l.y1 - l.y2)).natAbs ≤ 65536 := by
        rw [Int.natAbs_tdiv, Int.natAbs_mul]
        calc (l.x1 - l.x2).natAbs * (65536 : Int).natAbs / (l.y1 - l.y2).natAbs ≤
            (l.y1 - l.y2).natAbs * 65536 / (l.y1 - l.y2).natAbs := by
              apply Nat.div_le_div_right
              have h65 : (65536 : Int).natAbs = 65536 := by norm_num
              rw [h65]
              exact Nat.mul_le_mul_right _ (by omega)
          _ = 65536 := Nat.mul_div_cancel_left _ (by omega)
      have hL := wuLoopV_apply l.color (l.y2 - tileY) (l.x2 - tileX)
        (Int.tdiv ((l.x1 - l.x2) * 65536) (l.y1 - l.y2)) (max (l.y2 - tileY) 0)
        ((min (l.y1 - tileY) 7 - max (l.y2 - tileY) 0 + 1).toNat) t px py
        hpx0 hpx8 hpy0 hpy8 (le_max_left _ _) (by omega) hinc (by omega)
      rw [hL]
      by_cases hY : l.y2 ≤ tileY + py ∧ tileY + py ≤ l.y1
      · conv_rhs => rw [if_pos hY]
        conv_lhs => rw [if_pos (show max (l.y2 - tileY) 0 ≤ py ∧
          py < max (l.y2 - tileY) 0 +
            ((min (l.y1 - tileY) 7 - max (l.y2 - tileY) 0 + 1).toNat : Int) by omega)]
        have hq : py - (l.y2 - tileY) = tileY + py - l.y2 := by ring
        rw [hq]
        by_cases hfl : tileX + px =
            l.x2 + (tileY + py - l.y2) * Int.tdiv ((l.x1 - l.x2) * 65536) (l.y1 - l.y2) / 65536
        · have hflL : px = l.x2 - tileX +
              (tileY + py - l.y2) * Int.tdiv ((l.x1 - l.x2) * 65536) (l.y1 - l.y2) / 65536 := by
            omega
          conv_rhs => rw [if_pos hfl]
          conv_lhs => rw [if_pos hflL]
        · by_cases hcl : tileX + px =
              l.x2 + (tileY + py - l.y2) * Int.tdiv ((l.x1 - l.x2) * 65536) (l.y1 - l.y2) / 65536 + 1
          · have hclL : px = l.x2 - tileX +
                (tileY + py - l.y2) * Int.tdiv ((l.x1 - l.x2) * 65536) (l.y1 - l.y2) / 65536 + 1 := by
              omega
            conv_rhs => rw [if_neg hfl, if_pos hcl]
            conv_lhs => rw [if_neg (by omega), if_pos hclL]
          · conv_rhs => rw [if_neg hfl, if_neg hcl]
            conv_lhs => rw [if_neg (by omega), if_neg (by omega)]
      · conv_rhs => rw [if_neg hY]
        conv_lhs => rw [if_neg (show ¬(max (l.y2 - tileY) 0 ≤ py ∧
          py < max (l.y2 - tileY) 0 +
            ((min (l.y1 - tileY) 7 - max (l.y2 - tileY) 0 + 1).toNat : Int)) by omega)]
    · rw [if_neg hyy, if_neg (show ¬(l.y1 > l.y2) by omega)]
      have hnum : ((l.x2 - l.x1) * 65536).natAbs ≤ 536870912 := by
        rw [Int.natAbs_mul]
        calc (l.x2 - l.x1).natAbs * (65536 : Int).natAbs ≤ 8192 * 65536 :=
          Nat.mul_le_mul (by omega) (by norm_num)
          _ = 536870912 := by norm_num
      have hw32 : w32 ((l.x2 - l.x1) * 65536) = (l.x2 - l.x1) * 65536 :=
        w32_eq (by omega) (by omega)
      rw [hw32]
      have hinc : (Int.tdiv ((l.x2 - l.x1) * 65536) (l.y2 - l.y1)).natAbs ≤ 65536 := by
        rw [Int.natAbs_tdiv, Int.natAbs_mul]
        calc (l.x2 - l.x1).natAbs * (65536 : Int).natAbs / (l.y2 - l.y1).natAbs ≤
            (l.y2 - l.y1).natAbs * 65536 / (l.y2 - l.y1).natAbs := by
              apply Nat.div_le_div_right
              have h65 : (65536 : Int).natAbs = 65536 := by norm_num
              rw [h65]
              exact Nat.mul_le_mul_right _ (by omega)
          _ = 65536 := Nat.mul_div_cancel_left _ (by omega)
      have hL := wuLoopV_apply l.color (l.y1 - tileY) (l.x1 - tileX)
        (Int.tdiv ((l.x2 - l.x1) * 65536) (l.y2 - l.y1)) (max (l.y1 - tileY) 0)
        ((min (l.y2 - tileY) 7 - max (l.y1 - tileY) 0 + 1).toNat) t px py
        hpx0 hpx8 hpy0 hpy8 (le_max_left _ _) (by omega) hinc (by omega)
      rw [hL]
      by_cases hY : l.y1 ≤ tileY + py ∧ tileY + py ≤ l.y2
      · conv_rhs => rw [if_pos hY]
        conv_lhs => rw [if_pos (show max (l.y1 - tileY) 0 ≤ py ∧
          py < max (l.y1 - tileY) 0 +
            ((min (l.y2 - tileY) 7 - max (l.y1 - tileY) 0 + 1).toNat : Int) by omega)]
        have hq : py - (l.y1 - tileY) = tileY + py - l.y1 := by ring
        rw [hq]
        by_cases hfl : tileX + px =
            l.x1 + (tileY + py - l.y1) * Int.tdiv ((l.x2 - l.x1) * 65536) (l.y2 - l.y1) / 65536
        · have hflL : px = l.x1 - tileX +
              (tileY + py - l.y1) * Int.tdiv ((l.x2 - l.x1) * 65536) (l.y2 - l.y1) / 65536 := by
            omega
          conv_rhs => rw [if_pos hfl]
          conv_lhs => rw [if_pos hflL]
        · by_cases hcl : tileX + px =
              l.x1 + (tileY + py - l.y1) * Int.tdiv ((l.x2 - l.x1) * 65536) (l.y2 - l.y1) / 65536 + 1
          · have hclL : px = l.x1 - tileX +
                (tileY + py - l.y1) * Int.tdiv ((l.x2 - l.x1) * 65536) (l.y2 - l.y1) / 65536 + 1 := by
              omega
            conv_rhs => rw [if_neg hfl, if_pos hcl]
            conv_lhs => rw [if_neg (by omega), if_pos hclL]
          · conv_rhs => rw [if_neg hfl, if_neg hcl]
            conv_lhs => rw [if_neg (by omega), if_neg (by omega)]
      · conv_rhs => rw [if_neg hY]
        conv_lhs => rw [if_neg (show ¬(max (l.y1 - tileY) 0 ≤ py ∧
          py < max (l.y1 - tileY) 0 +
            ((min (l.y2 - tileY) 7 - max (l.y1 - tileY) 0 + 1).toNat : Int)) by omega)]

/-- C2: for a general (non-horizontal, non-vertical) line, Line.paint computes
each step's minor-axis position by a fresh multiply of the step index with the
Q15.16 increment, paints the floor pixel with weight 255 - fractionalPart and
the ceil pixel with weight fractionalPart via ApplyAlpha then Blend, skipping
pixels outside the tile; hence painting equals the end-to-end rasterization
lineCoverage restricted to the tile, and the value written at one absolute
pixel is the same whichever tile origin is used. -/
theorem linePaint_tile_refinement (l : Line)
    (hb1 : l.x1.natAbs ≤ 4096) (hb2 : l.y1.natAbs ≤ 4096)
    (hb3 : l.x2.natAbs ≤ 4096) (hb4 : l.y2.natAbs ≤ 4096)
    (hxne : l.x1 ≠ l.x2) (hyne : l.y1 ≠ l.y2) (hnorm : l.x1 ≤ l.x2) :
    (∀ (t : PixMap) (tileX tileY px py : Int),
        tileX.natAbs ≤ 4096 → tileY.natAbs ≤ 4096 →
        0 ≤ px → px < 8 → 0 ≤ py → py < 8 →
        linePaint l t tileX tileY px py =
          match lineCoverage l (tileX + px) (tileY + py) with
          | some w => Blend (t px py) (ApplyAlpha l.color w)
          | none => t px py) ∧
    (∀ (t1 t2 : PixMap) (t1X t1Y t2X t2Y X Y : Int),
        t1X.natAbs ≤ 4096 → t1Y.natAbs ≤ 4096 → t2X.natAbs ≤ 4096 → t2Y.natAbs ≤ 4096 →
        0 ≤ X - t1X → X - t1X < 8 → 0 ≤ Y - t1Y → Y - t1Y < 8 →
        0 ≤ X - t2X → X - t2X < 8 → 0 ≤ Y - t2Y → Y - t2Y < 8 →
        t1 (X - t1X) (Y - t1Y) = t2 (X - t2X) (Y - t2Y) →
        linePaint l t1 t1X t1Y (X - t1X) (Y - t1Y) =
          linePaint l t2 t2X t2Y (X - t2X) (Y - t2Y)) := by
  have hmain : ∀ (t : PixMap) (tileX tileY px py : Int),
      tileX.natAbs ≤ 4096 → tileY.natAbs ≤ 4096 →
      0 ≤ px → px < 8 → 0 ≤ py → py < 8 →
      linePaint l t tileX tileY px py =
        match lineCoverage l (tileX + px) (tileY + py) with
        | some w => Blend (t px py) (ApplyAlpha l.color w)
        | none => t px py := by
    intro t tileX tileY px py ht1 ht2 h1 h2 h3 h4
    exact linePaint_diag_apply l t tileX tileY px py hb1 hb2 hb3 hb4 ht1 ht2
      hxne hyne hnorm h1 h2 h3 h4
  refine ⟨hmain, ?_⟩
  intro t1 t2 t1X t1Y t2X t2Y X Y ha1 ha2 ha3 ha4 hc1 hc2 hc3 hc4 hc5 hc6 hc7 hc8 hprev
  rw [hmain t1 t1X t1Y (X - t1X) (Y - t1Y) ha1 ha2 hc1 hc2 hc3 hc4,
    hmain t2 t2X t2Y (X - t2X) (Y - t2Y) ha3 ha4 hc5 hc6 hc7 hc8]
  have hx1 : t1X + (X - t1X) = X := by ring
  have hy1 : t1Y + (Y - t1Y) = Y := by ring
  have hx2 : t2X + (X - t2X) = X := by ring
  have hy2 : t2Y + (Y - t2Y) = Y := by ring
  rw [hx1, hy1, hx2, hy2, hprev]

/-- C2 (witness): the refinement theorem applied to the concrete diagonal line
from (0,0) to (5,3). -/
theorem linePaint_tile_refinement_witness :
    (∀ (t : PixMap) (tileX tileY px py : Int),
        tileX.natAbs ≤ 4096 → tileY.natAbs ≤ 4096 →
        0 ≤ px → px < 8 → 0 ≤ py → py < 8 →
        linePaint ⟨0, 0, 5, 3, ⟨255, 0, 0, 255⟩⟩ t tileX tileY px py =
          match lineCoverage ⟨0, 0, 5, 3, ⟨255, 0, 0, 255⟩⟩ (tileX + px) (tileY + py) with
          | some w => Blend (t px py) (ApplyAlpha (⟨255, 0, 0, 255⟩ : RGBA) w)
          | none => t px py) ∧
    (∀ (t1 t2 : PixMap) (t1X t1Y t2X t2Y X Y : Int),
        t1X.natAbs ≤ 4096 → t1Y.natAbs ≤ 4096 → t2X.natAbs ≤ 4096 → t2Y.natAbs ≤ 4096 →
        0 ≤ X - t1X → X - t1X < 8 → 0 ≤ Y - t1Y → Y - t1Y < 8 →
        0 ≤ X - t2X → X - t2X < 8 → 0 ≤ Y - t2Y → Y - t2Y < 8 →
        t1 (X - t1X) (Y - t1Y) = t2 (X - t2X) (Y - t2Y) →
        linePaint ⟨0, 0, 5, 3, ⟨255, 0, 0, 255⟩⟩ t1 t1X t1Y (X - t1X) (Y - t1Y) =
          linePaint ⟨0, 0, 5, 3, ⟨255, 0, 0, 255⟩⟩ t2 t2X t2Y (X - t2X) (Y - t2Y)) :=
  linePaint_tile_refinement ⟨0, 0, 5, 3, ⟨255, 0, 0, 255⟩⟩ (by decide) (by decide)
    (by decide) (by decide) (by decide) (by decide) (by decide)


theorem upd_apply (t : PixMap) (x y : Int) (c : RGBA) (a b : Int) :
    upd t x y c a b = if a = x ∧ b = y then c else t a b := rfl

theorem vSpanFast_apply (c : RGBA) (x y0 : Int) (n : Nat) (t : PixMap) (px py : Int) :
    vSpanFast c x y0 n t px py =
      if px = x ∧ y0 ≤ py ∧ py < y0 + n then c else t px py := by
  induction n generalizing y0 t with
  | zero => rw [vSpanFast, if_neg (by push_cast; omega)]
  | succ n ih =>
    rw [vSpanFast, ih]
    by_cases he : px = x ∧ py = y0
    · rw [if_neg (by push_cast; omega), if_pos (by push_cast; omega), upd_apply, if_pos he]
    · have hb : upd t x y0 c px py = t px py := by rw [upd_apply, if_neg he]
      rw [hb]
      by_cases hin : px = x ∧ y0 + 1 ≤ py ∧ py < y0 + 1 + (n : Int)
      · rw [if_pos hin, if_pos (by push_cast at hin ⊢; omega)]
      · rw [if_neg hin, if_neg (by push_cast at hin ⊢; omega)]

theorem vSpanBlend_apply (c : RGBA) (x y0 : Int) (n : Nat) (t : PixMap) (px py : Int) :
    vSpanBlend c x y0 n t px py =
      if px = x ∧ y0 ≤ py ∧ py < y0 + n then Blend (t px py) c else t px py := by
  induction n generalizing y0 t with
  | zero => rw [vSpanBlend, if_neg (by push_cast; omega)]
  | succ n ih =>
    rw [vSpanBlend, ih]
    by_cases he : px = x ∧ py = y0
    · rw [if_neg (by push_cast; omega), if_pos (by push_cast; omega), upd_apply, if_pos he,
        he.1, he.2]
    · have hb : upd t x y0 (Blend (t x y0) c) px py = t px py := by
        rw [upd_apply, if_neg he]
      rw [hb]
      by_cases hin : px = x ∧ y0 + 1 ≤ py ∧ py < y0 + 1 + (n : Int)
      · rw [if_pos hin, if_pos (by push_cast at hin ⊢; omega)]
      · rw [if_neg hin, if_neg (by push_cast at hin ⊢; omega)]

theorem hSpanFast_apply (c : RGBA) (y x0 : Int) (n : Nat) (t : PixMap) (px py : Int) :
    hSpanFast c y x0 n t px py =
      if py = y ∧ x0 ≤ px ∧ px < x0 + n then c else t px py := by
  induction n generalizing x0 t with
  | zero => rw [hSpanFast, if_neg (by push_cast; omega)]
  | succ n ih =>
    rw [hSpanFast, ih]
    by_cases he : px = x0 ∧ py = y
    · rw [if_neg (by push_cast; omega), if_pos (by push_cast; omega), upd_apply, if_pos he]
    · have hb : upd t x0 y c px py = t px py := by rw [upd_apply, if_neg he]
      rw [hb]
      by_cases hin : py = y ∧ x0 + 1 ≤ px ∧ px < x0 + 1 + (n : Int)
      · rw [if_pos hin, if_pos (by push_cast at hin ⊢; omega)]
      · rw [if_neg hin, if_neg (by push_cast at hin ⊢; omega)]

theorem hSpanBlend_apply (c : RGBA) (y x0 : Int) (n : Nat) (t : PixMap) (px py : Int) :
    hSpanBlend c y x0 n t px py =
      if py = y ∧ x0 ≤ px ∧ px < x0 + n then Blend (t px py) c else t px py := by
  induction n generalizing x0 t with
  | zero => rw [hSpanBlend, if_neg (by push_cast; omega)]
  | succ n ih =>
    rw [hSpanBlend, ih]
    by_cases he : px = x0 ∧ py = y
    · rw [if_neg (by push_cast; omega), if_pos (by push_cast; omega), upd_apply, if_pos he,
        he.1, he.2]
    · have hb : upd t x0 y (Blend (t x0 y) c) px py = t px py := by
        rw [upd_apply, if_neg he]
      rw [hb]
      by_cases hin : py = y ∧ x0 + 1 ≤ px ∧ px < x0 + 1 + (n : Int)
      · rw [if_pos hin, if_pos (by push_cast at hin ⊢; omega)]
      · rw [if_neg hin, if_neg (by push_cast at hin ⊢; omega)]

theorem linePaint_vertical_apply (l : Line) (t : PixMap) (tileX tileY px py : Int)
    (hx : l.x1 = l.x2)
    (hb2 : l.y1.natAbs ≤ 4096) (hb4 : l.y2.natAbs ≤ 4096)
    (hb1 : l.x1.natAbs ≤ 4096) (hbt1 : tileX.natAbs ≤ 4096) (hbt2 : tileY.natAbs ≤ 4096) :
    linePaint l t tileX tileY px py =
      if px = l.x1 - tileX ∧ 0 ≤ px ∧ px < 8 ∧
         max (min l.y1 l.y2 - tileY) 0 ≤ py ∧ py ≤ min (max l.y1 l.y2 - tileY) 7 then
        if l.color.a.val = 255 then l.color else Blend (t px py) l.color
      else t px py := by
  unfold linePaint
  rw [if_pos hx]
  have e1 : w16 (l.x1 - tileX) = l.x1 - tileX := w16_eq (by omega) (by omega)
  have e2 : w16 (min l.y1 l.y2 - tileY) = min l.y1 l.y2 - tileY := w16_eq (by omega) (by omega)
  have e3 : w16 (max l.y1 l.y2 - tileY) = max l.y1 l.y2 - tileY := w16_eq (by omega) (by omega)
  rw [e1, e2, e3]
  by_cases hout : l.x1 - tileX < 0 ∨ 8 ≤ l.x1 - tileX
  · rw [if_pos hout, if_neg (by omega)]
  · rw [if_neg hout]
    by_cases hfast : l.color.a.val = 255
    · rw [if_pos hfast, vSpanFast_apply]
      conv_rhs => rw [if_pos hfast]
      by_cases hc : px = l.x1 - tileX ∧ max (min l.y1 l.y2 - tileY) 0 ≤ py ∧
          py < max (min l.y1 l.y2 - tileY) 0 +
            ((min (max l.y1 l.y2 - tileY) 7 - max (min l.y1 l.y2 - tileY) 0 + 1).toNat : Int)
      · rw [if_pos hc, if_pos (by omega)]
      · rw [if_neg hc, if_neg (by omega)]
    · rw [if_neg hfast, vSpanBlend_apply]
      conv_rhs => rw [if_neg hfast]
      by_cases hc : px = l.x1 - tileX ∧ max (min l.y1 l.y2 - tileY) 0 ≤ py ∧
          py < max (min l.y1 l.y2 - tileY) 0 +
            ((min (max l.y1 l.y2 - tileY) 7 - max (min l.y1 l.y2 - tileY) 0 + 1).toNat : Int)
      · rw [if_pos hc, if_pos (by omega)]
      · rw [if_neg hc, if_neg (by omega)]

theorem linePaint_horizontal_apply (l : Line) (t : PixMap) (tileX tileY px py : Int)
    (hxne : l.x1 ≠ l.x2) (hy : l.y1 = l.y2)
    (hb1 : l.x1.natAbs ≤ 4096) (hb3 : l.x2.natAbs ≤ 4096)
    (hb2 : l.y1.natAbs ≤ 4096) (hbt1 : tileX.natAbs ≤ 4096) (hbt2 : tileY.natAbs ≤ 4096) :
    linePaint l t tileX tileY px py =
      if py = l.y1 - tileY ∧ 0 ≤ py ∧ py < 8 ∧
         max (min l.x1 l.x2 - tileX) 0 ≤ px ∧ px ≤ min (max l.x1 l.x2 - tileX) 7 then
        if l.color.a.val = 255 then l.color else Blend (t px py) l.color
      else t px py := by
  unfold linePaint
  rw [if_neg hxne, if_pos hy]
  have e1 : w16 (l.y1 - tileY) = l.y1 - tileY := w16_eq (by omega) (by omega)
  have e2 : w16 (min l.x1 l.x2 - tileX) = min l.x1 l.x2 - tileX := w16_eq (by omega) (by omega)
  have e3 : w16 (max l.x1 l.x2 - tileX) = max l.x1 l.x2 - tileX := w16_eq (by omega) (by omega)
  rw [e1, e2, e3]
  by_cases hout : l.y1 - tileY < 0 ∨ 8 ≤ l.y1 - tileY
  · rw [if_pos hout, if_neg (by omega)]
  · rw [if_neg hout]
    by_cases hfast : l.color.a.val = 255
    · rw [if_pos hfast, hSpanFast_apply]
      conv_rhs => rw [if_pos hfast]
      by_cases hc : py = l.y1 - tileY ∧ max (min l.x1 l.x2 - tileX) 0 ≤ px ∧
          px < max (min l.x1 l.x2 - tileX) 0 +
            ((min (max l.x1 l.x2 - tileX) 7 - max (min l.x1 l.x2 - tileX) 0 + 1).toNat : Int)
      · rw [if_pos hc, if_pos (by omega)]
      · rw [if_neg hc, if_neg (by omega)]
    · rw [if_neg hfast, hSpanBlend_apply]
      conv_rhs => rw [if_neg hfast]
      by_cases hc : py = l.y1 - tileY ∧ max (min l.x1 l.x2 - tileX) 0 ≤ px ∧
          px < max (min l.x1 l.x2 - tileX) 0 +
            ((min (max l.x1 l.x2 - tileX) 7 - max (min l.x1 l.x2 - tileX) 0 + 1).toNat : Int)
      · rw [if_pos hc, if_pos (by omega)]
      · rw [if_neg hc, if_neg (by omega)]

/-- A tile buffer holding a single color everywhere. -/
def constMap (c : RGBA) : PixMap := fun _ _ => c

/-- C5 (counterexample): a translucent rectangle (alpha 127) painted over a
white tile stores its raw color into the covered pixel instead of blending it
with the white background already present. -/
theorem rectanglePaint_no_blend_counterexample :
    ((⟨127, 0, 0, 127⟩ : RGBA).a.val < 255) ∧
    rectanglePaint ⟨0, 0, 8, 8⟩ ⟨127, 0, 0, 127⟩ (constMap ⟨255, 255, 255, 255⟩) 0 0 0 0 =
      ⟨127, 0, 0, 127⟩ ∧
    rectanglePaint ⟨0, 0, 8, 8⟩ ⟨127, 0, 0, 127⟩ (constMap ⟨255, 255, 255, 255⟩) 0 0 0 0 ≠
      Blend (constMap ⟨255, 255, 255, 255⟩ 0 0) ⟨127, 0, 0, 127⟩ := by
  exact ⟨by decide, by decide, by decide⟩

/-- C5 (amended): a translucent Line blends each pixel it covers against the
scratch buffer (the straight spans via Blend with the stored color, the
diagonal branch via ApplyAlpha then Blend), while Rectangle.paint always
overwrites the covered pixels with the stored color, translucent or not. -/
theorem paint_translucency_behavior :
    (∀ (r : Box) (c : RGBA) (t : PixMap) (tileX tileY px py : Int),
        r.x1.natAbs ≤ 4096 → r.y1.natAbs ≤ 4096 → r.x2.natAbs ≤ 4096 → r.y2.natAbs ≤ 4096 →
        tileX.natAbs ≤ 4096 → tileY.natAbs ≤ 4096 →
        max (r.x1 - tileX) 0 ≤ px → px < min (r.x2 - tileX) 8 →
        max (r.y1 - tileY) 0 ≤ py → py < min (r.y2 - tileY) 8 →
        rectanglePaint r c t tileX tileY px py = c) ∧
    (∀ (l : Line) (t : PixMap) (tileX tileY px py : Int),
        l.x1 = l.x2 → l.color.a.val ≠ 255 →
        l.x1.natAbs ≤ 4096 → l.y1.natAbs ≤ 4096 → l.y2.natAbs ≤ 4096 →
        tileX.natAbs ≤ 4096 → tileY.natAbs ≤ 4096 →
        px = l.x1 - tileX → 0 ≤ px → px < 8 →
        max (min l.y1 l.y2 - tileY) 0 ≤ py → py ≤ min (max l.y1 l.y2 - tileY) 7 →
        linePaint l t tileX tileY px py = Blend (t px py) l.color) ∧
    (∀ (l : Line) (t : PixMap) (tileX tileY px py : Int),
        l.x1 ≠ l.x2 → l.y1 = l.y2 → l.color.a.val ≠ 255 →
        l.x1.natAbs ≤ 4096 → l.x2.natAbs ≤ 4096 → l.y1.natAbs ≤ 4096 →
        tileX.natAbs ≤ 4096 → tileY.natAbs ≤ 4096 →
        py = l.y1 - tileY → 0 ≤ py → py < 8 →
        max (min l.x1 l.x2 - tileX) 0 ≤ px → px ≤ min (max l.x1 l.x2 - tileX) 7 →
        linePaint l t tileX tileY px py = Blend (t px py) l.color) ∧
    (∀ (l : Line) (t : PixMap) (tileX tileY px py : Int),
        l.x1 ≠ l.x2 → l.y1 ≠ l.y2 → l.x1 ≤ l.x2 →
        l.x1.natAbs ≤ 4096 → l.y1.natAbs ≤ 4096 → l.x2.natAbs ≤ 4096 → l.y2.natAbs ≤ 4096 →
        tileX.natAbs ≤ 4096 → tileY.natAbs ≤ 4096 →
        0 ≤ px → px < 8 → 0 ≤ py → py < 8 →
        linePaint l t tileX tileY px py ≠ t px py →
        ∃ w : Byte, linePaint l t tileX tileY px py =
          Blend (t px py) (ApplyAlpha l.color w)) := by
  refine ⟨?_, ?_, ?_, ?_⟩
  · intro r c t tileX tileY px py h1 h2 h3 h4 h5 h6 hx1 hx2 hy1 hy2
    rw [rectanglePaint_apply r c t tileX tileY px py (by omega) (by omega) (by omega)
      (by omega) (by omega) (by omega) (by omega) (by omega)]
    rw [if_pos ⟨hx1, hx2, hy1, hy2⟩]
  · intro l t tileX tileY px py hx ha h1 h2 h3 h4 h5 hpx h0 h8 hylo hyhi
    rw [linePaint_vertical_apply l t tileX tileY px py hx h2 h3 h1 h4 h5,
      if_pos ⟨hpx, h0, h8, hylo, hyhi⟩, if_neg ha]
  · intro l t tileX tileY px py hxne hy ha h1 h2 h3 h4 h5 hpy h0 h8 hxlo hxhi
    rw [linePaint_horizontal_apply l t tileX tileY px py hxne hy h1 h2 h3 h4 h5,
      if_pos ⟨hpy, h0, h8, hxlo, hxhi⟩, if_neg ha]
  · intro l t tileX tileY px py hxne hyne hnorm h1 h2 h3 h4 h5 h6 c1 c2 c3 c4 hchanged
    rw [linePaint_diag_apply l t tileX tileY px py h1 h2 h3 h4 h5 h6 hxne hyne hnorm
      c1 c2 c3 c4] at hchanged ⊢
    rcases hcov : lineCoverage l (tileX + px) (tileY + py) with _ | w
    · rw [hcov] at hchanged
      exact absurd rfl hchanged
    · exact ⟨w, rfl⟩

/-- C5 (witness): the rectangle conjunct at a concrete translucent rectangle
and the vertical-line conjunct at a concrete translucent line. -/
theorem paint_translucency_behavior_witness :
    rectanglePaint ⟨0, 0, 8, 8⟩ ⟨10, 20, 30, 40⟩ (constMap ⟨0, 0, 0, 255⟩) 0 0 3 3 =
      ⟨10, 20, 30, 40⟩ ∧
    linePaint ⟨2, 0, 2, 7, ⟨10, 20, 30, 40⟩⟩ (constMap ⟨0, 0, 0, 255⟩) 0 0 2 3 =
      Blend (constMap ⟨0, 0, 0, 255⟩ 2 3) ⟨10, 20, 30, 40⟩ :=
  ⟨paint_translucency_behavior.1 ⟨0, 0, 8, 8⟩ ⟨10, 20, 30, 40⟩ (constMap ⟨0, 0, 0, 255⟩)
      0 0 3 3 (by decide) (by decide) (by decide) (by decide) (by decide) (by decide)
      (by decide) (by decide) (by decide) (by decide),
    paint_translucency_behavior.2.1 ⟨2, 0, 2, 7, ⟨10, 20, 30, 40⟩⟩ (constMap ⟨0, 0, 0, 255⟩)
      0 0 2 3 (by decide) (by decide) (by decide) (by decide) (by decide) (by decide)
      (by decide) (by decide) (by decide) (by decide) (by decide) (by decide)⟩

/-- A scene object as seen by Layer.paint: a bounding box and a paint routine
taking the tile buffer and the tile origin in the object's parent's local
coordinates. Children of any kind (Rectangle, Line, nested Layer) fit this. -/
structure ObjectM where
  bbox : Box
  paintFn : PixMap → Int → Int → PixMap

/-- The loop of Layer.paintObjects over the children, with the tile origin
already translated into layer-local coordinates: a child is skipped when its
bounding box misses the tile window, with half-open semantics on x2 and y2. -/
def paintObjectsLoc : List ObjectM → PixMap → Int → Int → PixMap
  | [], t, _, _ => t
  | o :: rest, t, tileX, tileY =>
      paintObjectsLoc rest
        (if o.bbox.x1 > w16 (tileX + 8) ∨ o.bbox.y1 > w16 (tileY + 8) ∨
            o.bbox.x2 ≤ tileX ∨ o.bbox.y2 ≤ tileY then t
         else o.paintFn t tileX tileY)
        tileX tileY

/-- Layer.paintObjects from the source: translate the tile origin into the
layer's coordinate system, then paint all overlapping children in order. -/
def paintObjects (rect : Box) (objs : List ObjectM) (t : PixMap)
    (tileX tileY : Int) : PixMap :=
  paintObjectsLoc objs t (w16 (tileX - rect.x1)) (w16 (tileY - rect.y1))

/-- C7: the child-skip test of Layer.paint treats bounding boxes as half-open:
a child whose box has x2 equal to the (layer-local) tile origin x, or y2 equal
to the tile origin y, only touches the tile and is skipped, so its paint
routine is not invoked for that tile. -/
theorem paintObjects_halfopen_skip (pre post : List ObjectM) (o : ObjectM)
    (t : PixMap) (tileX tileY : Int)
    (h : o.bbox.x2 = tileX ∨ o.bbox.y2 = tileY) :
    paintObjectsLoc (pre ++ o :: post) t tileX tileY =
      paintObjectsLoc (pre ++ post) t tileX tileY := by
  induction pre generalizing t with
  | nil =>
    rw [List.nil_append, List.nil_append, paintObjectsLoc, if_pos]
    rcases h with h | h
    · exact Or.inr (Or.inr (Or.inl (le_of_eq h)))
    · exact Or.inr (Or.inr (Or.inr (le_of_eq h)))
  | cons p rest ih =>
    rw [List.cons_append, List.cons_append, paintObjectsLoc, paintObjectsLoc, ih]

/-- C7 (witness): a child whose box exactly touches the tile origin on the x
side is skipped, leaving the buffer unchanged even though its paint routine
would repaint everything. -/
theorem paintObjects_halfopen_skip_witness :
    paintObjectsLoc [⟨⟨0, 0, 8, 8⟩, fun _ _ _ => constMap ⟨1, 2, 3, 4⟩⟩]
        (constMap ⟨9, 9, 9, 255⟩) 8 0 =
      paintObjectsLoc [] (constMap ⟨9, 9, 9, 255⟩) 8 0 :=
  paintObjects_halfopen_skip [] [] ⟨⟨0, 0, 8, 8⟩, fun _ _ _ => constMap ⟨1, 2, 3, 4⟩⟩
    (constMap ⟨9, 9, 9, 255⟩) 8 0 (Or.inl rfl)

def fillTileRow (c : RGBA) (y : Int) : Int → Nat → PixMap → PixMap
  | _, 0, t => t
  | xx, n + 1, t => fillTileRow c y (xx + 1) n (upd t xx y c)

def fillTileRows (c : RGBA) : Int → Nat → PixMap → PixMap
  | _, 0, t => t
  | yy, n + 1, t => fillTileRows c (yy + 1) n (fillTileRow c yy 0 8 t)

/-- The background fill of Layer.paint from part of the source: every cell of
the freshly borrowed scratch tile (whose prior contents g are pool garbage) is
set to the layer's background color, without blending. -/
def fillTile (g : PixMap) (c : RGBA) : PixMap := fillTileRows c 0 8 g

theorem fillTileRow_apply (c : RGBA) (y x0 : Int) (n : Nat) (t : PixMap) (px py : Int) :
    fillTileRow c y x0 n t px py =
      if py = y ∧ x0 ≤ px ∧ px < x0 + n then c else t px py := by
  induction n generalizing x0 t with
  | zero => rw [fillTileRow, if_neg (by push_cast; omega)]
  | succ n ih =>
    rw [fillTileRow, ih]
    by_cases he : px = x0 ∧ py = y
    · rw [if_neg (by push_cast; omega), if_pos (by push_cast; omega), upd_apply, if_pos he]
    · have hb : upd t x0 y c px py = t px py := by rw [upd_apply, if_neg he]
      rw [hb]
      by_cases hin : py = y ∧ x0 + 1 ≤ px ∧ px < x0 + 1 + (n : Int)
      · rw [if_pos hin, if_pos (by push_cast at hin ⊢; omega)]
      · rw [if_neg hin, if_neg (by push_cast at hin ⊢; omega)]

theorem fillTileRows_apply (c : RGBA) (y0 : Int) (n : Nat) (t : PixMap) (px py : Int) :
    fillTileRows c y0 n t px py =
      if 0 ≤ px ∧ px < 8 ∧ y0 ≤ py ∧ py < y0 + n then c else t px py := by
  induction n generalizing y0 t with
  | zero => rw [fillTileRows, if_neg (by push_cast; omega)]
  | succ n ih =>
    rw [fillTileRows, ih, fillTileRow_apply]
    split_ifs <;> first | rfl | omega

theorem fillTile_apply (g : PixMap) (c : RGBA) (px py : Int) :
    fillTile g c px py = if 0 ≤ px ∧ px < 8 ∧ 0 ≤ py ∧ py < 8 then c else g px py := by
  rw [fillTile, fillTileRows_apply]
  split_ifs <;> first | rfl | omega

def copyColOp (sub : PixMap) (x : Int) : Int → Nat → PixMap → PixMap
  | _, 0, t => t
  | yy, n + 1, t => copyColOp sub x (yy + 1) n (upd t x yy (sub x yy))

/-- The fast copy path of Layer.paint: the layer background is fully opaque, so
the visible window of the scratch tile is copied into the destination tile. -/
def copyOp (sub : PixMap) (y1 : Int) (ny : Nat) : Int → Nat → PixMap → PixMap
  | _, 0, t => t
  | xx, n + 1, t => copyOp sub y1 ny (xx + 1) n (copyColOp sub xx y1 ny t)

def copyColBlend (sub : PixMap) (x : Int) : Int → Nat → PixMap → PixMap
  | _, 0, t => t
  | yy, n + 1, t => copyColBlend sub x (yy + 1) n (upd t x yy (Blend (t x yy) (sub x yy)))

/-- The slow copy path of Layer.paint: a partially transparent background is
blended with the destination tile over the visible window. -/
def copyBlend (sub : PixMap) (y1 : Int) (ny : Nat) : Int → Nat → PixMap → PixMap
  | _, 0, t => t
  | xx, n + 1, t => copyBlend sub y1 ny (xx + 1) n (copyColBlend sub xx y1 ny t)

theorem copyColOp_apply (sub : PixMap) (x y0 : Int) (n : Nat) (t : PixMap) (px py : Int) :
    copyColOp sub x y0 n t px py =
      if px = x ∧ y0 ≤ py ∧ py < y0 + n then sub px py else t px py := by
  induction n generalizing y0 t with
  | zero => rw [copyColOp, if_neg (by push_cast; omega)]
  | succ n ih =>
    rw [copyColOp, ih]
    by_cases he : px = x ∧ py = y0
    · rw [if_neg (by push_cast; omega), if_pos (by push_cast; omega), upd_apply, if_pos he,
        he.1, he.2]
    · have hb : upd t x y0 (sub x y0) px py = t px py := by rw [upd_apply, if_neg he]
      rw [hb]
      by_cases hin : px = x ∧ y0 + 1 ≤ py ∧ py < y0 + 1 + (n : Int)
      · rw [if_pos hin, if_pos (by push_cast at hin ⊢; omega)]
      · rw [if_neg hin, if_neg (by push_cast at hin ⊢; omega)]

theorem copyOp_apply (sub : PixMap) (y0 : Int) (ny : Nat) (x0 : Int) (nx : Nat)
    (t : PixMap) (px py : Int) :
    copyOp sub y0 ny x0 nx t px py =
      if x0 ≤ px ∧ px < x0 + nx ∧ y0 ≤ py ∧ py < y0 + ny then sub px py else t px py := by
  induction nx generalizing x0 t with
  | zero => rw [copyOp, if_neg (by push_cast; omega)]
  | succ n ih =>
    rw [copyOp, ih, copyColOp_apply]
    split_ifs <;> first | rfl | omega

theorem copyColBlend_apply (sub : PixMap) (x y0 : Int) (n : Nat) (t : PixMap) (px py : Int) :
    copyColBlend sub x y0 n t px py =
      if px = x ∧ y0 ≤ py ∧ py < y0 + n then Blend (t px py) (sub px py) else t px py := by
  induction n generalizing y0 t with
  | zero => rw [copyColBlend, if_neg (by push_cast; omega)]
  | succ n ih =>
    rw [copyColBlend, ih]
    by_cases he : px = x ∧ py = y0
    · rw [if_neg (by push_cast; omega), if_pos (by push_cast; omega), upd_apply, if_pos he,
        he.1, he.2]
    · have hb : upd t x y0 (Blend (t x y0) (sub x y0)) px py = t px py := by
        rw [upd_apply, if_neg he]
      rw [hb]
      by_cases hin : px = x ∧ y0 + 1 ≤ py ∧ py < y0 + 1 + (n : Int)
      · rw [if_pos hin, if_pos (by push_cast at hin ⊢; omega)]
      · rw [if_neg hin, if_neg (by push_cast at hin ⊢; omega)]

theorem copyBlend_apply (sub : PixMap) (y0 : Int) (ny : Nat) (x0 : Int) (nx : Nat)
    (t : PixMap) (px py : Int) :
    copyBlend sub y0 ny x0 nx t px py =
      if x0 ≤ px ∧ px < x0 + nx ∧ y0 ≤ py ∧ py < y0 + ny then
        Blend (t px py) (sub px py)
      else t px py := by
  induction nx generalizing x0 t with
  | zero => rw [copyBlend, if_neg (by push_cast; omega)]
  | succ n ih =>
    rw [copyBlend, ih, copyColBlend_apply]
    split_ifs <;> first | rfl | omega

/-- Layer.paint from the source: borrow a scratch tile (its garbage prior
contents are g), fill it with the background color, paint the children into
it, compute the sub-window of the tile that lies inside the layer's own
bounds, and copy (opaque background) or blend (translucent background) only
that window into the destination tile t. -/
def layerPaint (rect : Box) (bg : RGBA) (objs : List ObjectM) (g t : PixMap)
    (tileX tileY : Int) : PixMap :=
  let subtile := paintObjects rect objs (fillTile g bg) tileX tileY
  let tX := w16 (tileX - rect.x1)
  let tY := w16 (tileY - rect.y1)
  let x1 := if tX < 0 then w16 (-tX) else 0
  let y1 := if tY < 0 then w16 (-tY) else 0
  let x2 := if w16 (tX + 8) > w16 (rect.x2 - rect.x1) then w16 (w16 (rect.x2 - rect.x1) - tX)
    else 8
  let y2 := if w16 (tY + 8) > w16 (rect.y2 - rect.y1) then w16 (w16 (rect.y2 - rect.y1) - tY)
    else 8
  if bg.a.val = 255 then copyOp subtile y1 (y2 - y1).toNat x1 (x2 - x1).toNat t
  else copyBlend subtile y1 (y2 - y1).toNat x1 (x2 - x1).toNat t

/-- C6: Layer.paint never changes a destination pixel whose absolute
coordinate lies outside the layer's own rectangle, whatever the children (even
ones whose paint routines write anywhere in the scratch tile). -/
theorem layerPaint_clips_to_bounds (rect : Box) (bg : RGBA) (objs : List ObjectM)
    (g t : PixMap) (tileX tileY px py : Int)
    (hr1 : rect.x1.natAbs ≤ 4096) (hr2 : rect.y1.natAbs ≤ 4096)
    (hr3 : rect.x2.natAbs ≤ 4096) (hr4 : rect.y2.natAbs ≤ 4096)
    (ht1 : tileX.natAbs ≤ 4096) (ht2 : tileY.natAbs ≤ 4096)
    (hout : ¬ inBox rect (tileX + px) (tileY + py)) :
    layerPaint rect bg objs g t tileX tileY px py = t px py := by
  unfold layerPaint
  have e1 : w16 (tileX - rect.x1) = tileX - rect.x1 := w16_eq (by omega) (by omega)
  have e2 : w16 (tileY - rect.y1) = tileY - rect.y1 := w16_eq (by omega) (by omega)
  have e3 : w16 (-(tileX - rect.x1)) = -(tileX - rect.x1) := w16_eq (by omega) (by omega)
  have e4 : w16 (-(tileY - rect.y1)) = -(tileY - rect.y1) := w16_eq (by omega) (by omega)
  have e5 : w16 (tileX - rect.x1 + 8) = tileX - rect.x1 + 8 := w16_eq (by omega) (by omega)
  have e6 : w16 (tileY - rect.y1 + 8) = tileY - rect.y1 + 8 := w16_eq (by omega) (by omega)
  have e7 : w16 (rect.x2 - rect.x1) = rect.x2 - rect.x1 := w16_eq (by omega) (by omega)
  have e8 : w16 (rect.y2 - rect.y1) = rect.y2 - rect.y1 := w16_eq (by omega) (by omega)
  have e9 : w16 (rect.x2 - rect.x1 - (tileX - rect.x1)) = rect.x2 - rect.x1 - (tileX - rect.x1) :=
    w16_eq (by omega) (by omega)
  have e10 : w16 (rect.y2 - rect.y1 - (tileY - rect.y1)) = rect.y2 - rect.y1 - (tileY - rect.y1) :=
    w16_eq (by omega) (by omega)
  rw [e1, e2, e3, e4, e5, e6, e7, e8, e9, e10]
  have hA1 : rect.x1 - tileX ≤ (if tileX - rect.x1 < 0 then -(tileX - rect.x1) else 0) := by
    split_ifs <;> omega
  have hC1 : rect.y1 - tileY ≤ (if tileY - rect.y1 < 0 then -(tileY - rect.y1) else 0) := by
    split_ifs <;> omega
  have hB1 : (if tileX - rect.x1 + 8 > rect.x2 - rect.x1 then
      rect.x2 - rect.x1 - (tileX - rect.x1) else 8) ≤ rect.x2 - tileX := by
    split_ifs <;> omega
  have hD1 : (if tileY - rect.y1 + 8 > rect.y2 - rect.y1 then
      rect.y2 - rect.y1 - (tileY - rect.y1) else 8) ≤ rect.y2 - tileY := by
    split_ifs <;> omega
  unfold inBox at hout
  by_cases hbg : bg.a.val = 255
  · rw [if_pos hbg, copyOp_apply, if_neg (by omega)]
  · rw [if_neg hbg, copyBlend_apply, if_neg (by omega)]

/-- C6 (witness): with a layer rectangle (0,0,4,4) painted at tile origin
(0,0), the destination pixel (5,5) (absolute (5,5), outside the layer) keeps
its old value even though the only child paints every pixel of the scratch
tile red. -/
theorem layerPaint_clips_to_bounds_witness :
    layerPaint ⟨0, 0, 4, 4⟩ ⟨0, 0, 255, 255⟩
        [⟨⟨0, 0, 9, 9⟩, fun _ _ _ => constMap ⟨255, 0, 0, 255⟩⟩]
        (constMap ⟨7, 7, 7, 7⟩) (constMap ⟨1, 1, 1, 255⟩) 0 0 5 5 =
      constMap ⟨1, 1, 1, 255⟩ 5 5 :=
  layerPaint_clips_to_bounds ⟨0, 0, 4, 4⟩ ⟨0, 0, 255, 255⟩
    [⟨⟨0, 0, 9, 9⟩, fun _ _ _ => constMap ⟨255, 0, 0, 255⟩⟩]
    (constMap ⟨7, 7, 7, 7⟩) (constMap ⟨1, 1, 1, 255⟩) 0 0 5 5
    (by decide) (by decide) (by decide) (by decide) (by decide) (by decide) (by decide)

/-- A call made by Engine.Display to the display adapter: a
FillRectangleWithBuffer of one tile at the given origin, or the final Display
flush. -/
inductive DispEv where
  | buf : Int → Int → DispEv
  | flush : DispEv
deriving DecidableEq, Repr

/-- The buffer writes Engine.Display issues while scanning one row of the
clean-tile grid (the first index row is the tile x coordinate): each cell that
is not clean produces one tile write at (row*TileSize, col*TileSize). -/
def displayRowEvents (row hT : Nat) (clean : Nat → Nat → Bool) : List DispEv :=
  (List.range hT).filterMap fun col =>
    if clean row col then none
    else some (.buf (w16 (8 * (row : Int))) (w16 (8 * (col : Int))))

/-- The display-adapter calls of one Engine.Display run over a wT x hT clean
grid, in order: the per-tile buffer writes in row-major grid order, then
exactly one flush. -/
def displayEvents (wT hT : Nat) (clean : Nat → Nat → Bool) : List DispEv :=
  ((List.range wT).flatMap fun row => displayRowEvents row hT clean) ++ [.flush]

/-- The clean grid after Engine.Display: every in-range cell is true. -/
def displayClean (wT hT : Nat) (clean : Nat → Nat → Bool) : Nat → Nat → Bool :=
  fun r c => if r < wT ∧ c < hT then true else clean r c

theorem countP_range_unique (p : Nat → Bool) (n c : Nat) (hc : c < n)
    (h : ∀ k, k < n → p k = true → k = c) :
    (List.range n).countP p = if p c then 1 else 0 := by
  induction n with
  | zero => omega
  | succ m ih =>
    rw [List.range_succ, List.countP_append]
    by_cases hcm : c = m
    · subst hcm
      have h0 : (List.range c).countP p = 0 := by
        rw [List.countP_eq_zero]
        intro a ha hpa
        have ha2 : a < c := List.mem_range.mp ha
        exact absurd (h a (by omega) hpa) (by omega)
      rw [h0]
      cases hp : p c <;> simp [List.countP_cons, hp]
    · have h0 : List.countP p [m] = 0 := by
        rw [List.countP_eq_zero]
        intro a ha hpa
        rw [List.mem_singleton] at ha
        subst ha
        exact absurd (h a (by omega) hpa) (fun hh => hcm hh.symm)
      rw [h0, ih (by omega) (fun k hk hpk => h k (by omega) hpk)]
      omega

theorem displayRowEvents_count_ne (row hT : Nat) (clean : Nat → Nat → Bool) (r c : Nat)
    (hrow : row ≤ 4095) (hr : r ≤ 4095) (hne : row ≠ r) :
    (displayRowEvents row hT clean).count (DispEv.buf (8 * (r : Int)) (8 * (c : Int))) = 0 := by
  rw [List.count_eq_zero]
  intro hmem
  obtain ⟨col, hcol, heq⟩ := List.mem_filterMap.mp hmem
  by_cases hcl : clean row col
  · rw [if_pos hcl] at heq
    exact Option.noConfusion heq
  · rw [if_neg hcl] at heq
    obtain heq2 := Option.some.inj heq
    have hw : w16 (8 * (row : Int)) = 8 * (row : Int) := w16_eq (by omega) (by omega)
    injection heq2 with h1 h2
    rw [hw] at h1
    exact hne (by omega)

theorem displayRowEvents_count_eq (hT : Nat) (clean : Nat → Nat → Bool) (r c : Nat)
    (hr : r ≤ 4095) (hhT : hT ≤ 4096) (hc : c < hT) :
    (displayRowEvents r hT clean).count (DispEv.buf (8 * (r : Int)) (8 * (c : Int))) =
      if clean r c then 0 else 1 := by
  rw [displayRowEvents, List.count_filterMap]
  have hwr : w16 (8 * (r : Int)) = 8 * (r : Int) := w16_eq (by omega) (by omega)
  have hwc : w16 (8 * (c : Int)) = 8 * (c : Int) := w16_eq (by omega) (by omega)
  rw [countP_range_unique _ hT c hc]
  · by_cases hcl : clean r c
    · simp [hcl]
    · simp [hcl, hwr, hwc]
  · intro k hk hpk
    by_cases hcl : clean r k
    · simp [hcl] at hpk
    · simp [hcl] at hpk
      have hwk : w16 (8 * (k : Int)) = 8 * (k : Int) := w16_eq (by omega) (by omega)
      rw [hwk] at hpk
      omega

theorem displayEvents_count_buf (wT hT : Nat) (clean : Nat → Nat → Bool) (r c : Nat)
    (hw : wT ≤ 4096) (hh : hT ≤ 4096) (hr : r < wT) (hc : c < hT) :
    (displayEvents wT hT clean).count (DispEv.buf (8 * (r : Int)) (8 * (c : Int))) =
      if clean r c then 0 else 1 := by
  rw [displayEvents, List.count_append]
  have hflush : List.count (DispEv.buf (8 * (r : Int)) (8 * (c : Int))) [DispEv.flush] = 0 := by
    rw [List.count_eq_zero]
    simp
  rw [hflush]
  have hmain : ∀ m : Nat, m ≤ wT → r < m →
      ((List.range m).flatMap fun row => displayRowEvents row hT clean).count
        (DispEv.buf (8 * (r : Int)) (8 * (c : Int))) = if clean r c then 0 else 1 := by
    intro m
    induction m with
    | zero => omega
    | succ k ih =>
      intro hm hrm
      rw [List.range_succ, List.flatMap_append, List.count_append]
      by_cases hrk : r = k
      · subst hrk
        have h0 : ((List.range r).flatMap fun row => displayRowEvents row hT clean).count
            (DispEv.buf (8 * (r : Int)) (8 * (c : Int))) = 0 := by
          rw [List.count_eq_zero]
          intro hmem
          obtain ⟨row, hrow, hmem2⟩ := List.mem_flatMap.mp hmem
          have hlt : row < r := List.mem_range.mp hrow
          have := displayRowEvents_count_ne row hT clean r c (by omega) (by omega) (by omega)
          rw [List.count_eq_zero] at this
          exact this hmem2
        rw [h0]
        simp only [List.flatMap_cons, List.flatMap_nil, List.append_nil]
        rw [displayRowEvents_count_eq hT clean r c (by omega) hh hc]
        omega
      · have h1 : ((List.range k).flatMap fun row => displayRowEvents row hT clean).count
            (DispEv.buf (8 * (r : Int)) (8 * (c : Int))) = if clean r c then 0 else 1 :=
          ih (by omega) (by omega)
        rw [h1]
        simp only [List.flatMap_cons, List.flatMap_nil, List.append_nil]
        rw [displayRowEvents_count_ne k hT clean r c (by omega) (by omega)
          (fun hh2 => hrk hh2.symm)]
        omega
  rw [hmain wT le_rfl hr]
  omega

theorem displayEvents_flush_once (wT hT : Nat) (clean : Nat → Nat → Bool) :
    (displayEvents wT hT clean).count DispEv.flush = 1 ∧
    ∃ pre, displayEvents wT hT clean = pre ++ [DispEv.flush] ∧ DispEv.flush ∉ pre := by
  have hnof : DispEv.flush ∉ (List.range wT).flatMap fun row => displayRowEvents row hT clean := by
    intro hmem
    obtain ⟨row, hrow, hmem2⟩ := List.mem_flatMap.mp hmem
    obtain ⟨col, hcol, heq⟩ := List.mem_filterMap.mp hmem2
    by_cases hcl : clean row col
    · rw [if_pos hcl] at heq
      exact Option.noConfusion heq
    · rw [if_neg hcl] at heq
      obtain heq2 := Option.some.inj heq
      exact DispEv.noConfusion heq2
  constructor
  · rw [displayEvents, List.count_append]
    rw [List.count_eq_zero.mpr hnof]
    rfl
  · exact ⟨_, rfl, hnof⟩

/-- C8: after Engine.Display over a wT x hT grid, every cell of the grid is
clean; each cell that was dirty got exactly one tile buffer write (a clean
cell got none); and the adapter flush is called exactly once, positioned after
all buffer writes. -/
theorem display_flush_protocol (wT hT : Nat) (clean : Nat → Nat → Bool)
    (hw : wT ≤ 4096) (hh : hT ≤ 4096) :
    (∀ r c, r < wT → c < hT → displayClean wT hT clean r c = true) ∧
    (∀ r c, r < wT → c < hT →
      (displayEvents wT hT clean).count (DispEv.buf (8 * (r : Int)) (8 * (c : Int))) =
        if clean r c then 0 else 1) ∧
    (displayEvents wT hT clean).count DispEv.flush = 1 ∧
    (∃ pre, displayEvents wT hT clean = pre ++ [DispEv.flush] ∧ DispEv.flush ∉ pre) := by
  refine ⟨?_, ?_, (displayEvents_flush_once wT hT clean).1, (displayEvents_flush_once wT hT clean).2⟩
  · intro r c hr hc
    unfold displayClean
    rw [if_pos ⟨hr, hc⟩]
  · intro r c hr hc
    exact displayEvents_count_buf wT hT clean r c hw hh hr hc

/-- C8 (witness): the protocol at a 2 x 1 grid whose cell (0,0) is dirty and
cell (1,0) is clean. -/
theorem display_flush_protocol_witness :
    (∀ r c : Nat, r < 2 → c < 1 → displayClean 2 1 (fun r _ => r == 1) r c = true) ∧
    (∀ r c : Nat, r < 2 → c < 1 →
      (displayEvents 2 1 (fun r _ => r == 1)).count
          (DispEv.buf (8 * (r : Int)) (8 * (c : Int))) =
        if (fun r _ => r == 1) r c then 0 else 1) ∧
    (displayEvents 2 1 (fun r _ => r == 1)).count DispEv.flush = 1 ∧
    (∃ pre, displayEvents 2 1 (fun r _ => r == 1) = pre ++ [DispEv.flush] ∧
      DispEv.flush ∉ pre) :=
  display_flush_protocol 2 1 (fun r _ => r == 1) (by omega) (by omega)

/-- The width, in tiles, of the clean-tile grid NewEngine allocates:
make([][]bool, width/TileSize) with Go integer division. -/
def engineGridW (w : Int) : Int := Int.tdiv w 8

/-- The height, in tiles, of each column of the clean-tile grid NewEngine
allocates: make([]bool, height/TileSize). -/
def engineGridH (h : Int) : Int := Int.tdiv h 8

theorem tdiv_eight_nonneg (w : Int) (hw : 0 ≤ w) : Int.tdiv w 8 = w / 8 := by
  rcases w with n | n
  · rfl
  · exact absurd hw (by simp)

/-- C10: NewEngine sizes the dirty grid as floor(width/TileSize) by
floor(height/TileSize), and every tile buffer write of Engine.Display stays
within the first TileSize*floor(width/TileSize) columns and
TileSize*floor(height/TileSize) rows: the partial right and bottom pixel bands
of the display are never written. -/
theorem engine_partial_tiles_never_written (w h : Int)
    (hw0 : 0 ≤ w) (hw : w < 32768) (hh0 : 0 ≤ h) (hh : h < 32768) :
    (8 * engineGridW w ≤ w ∧ w < 8 * engineGridW w + 8) ∧
    (8 * engineGridH h ≤ h ∧ h < 8 * engineGridH h + 8) ∧
    (∀ (clean : Nat → Nat → Bool) (ev : DispEv),
      ev ∈ displayEvents (engineGridW w).toNat (engineGridH h).toNat clean →
      ∀ bx byy : Int, ev = DispEv.buf bx byy →
        0 ≤ bx ∧ bx + 8 ≤ 8 * engineGridW w ∧ 0 ≤ byy ∧ byy + 8 ≤ 8 * engineGridH h) := by
  rw [engineGridW, engineGridH, tdiv_eight_nonneg w hw0, tdiv_eight_nonneg h hh0]
  refine ⟨⟨by omega, by omega⟩, ⟨by omega, by omega⟩, ?_⟩
  intro clean ev hmem bx byy hev
  subst hev
  rw [displayEvents, List.mem_append] at hmem
  rcases hmem with hmem | hmem
  · obtain ⟨row, hrow, hmem2⟩ := List.mem_flatMap.mp hmem
    obtain ⟨col, hcol, heq⟩ := List.mem_filterMap.mp hmem2
    have hrlt : row < (w / 8).toNat := List.mem_range.mp hrow
    have hclt : col < (h / 8).toNat := List.mem_range.mp hcol
    by_cases hcl : clean row col
    · rw [if_pos hcl] at heq
      exact Option.noConfusion heq
    · rw [if_neg hcl] at heq
      obtain heq2 := Option.some.inj heq
      injection heq2 with h1 h2
      have hwr : w16 (8 * (row : Int)) = 8 * (row : Int) := w16_eq (by omega) (by omega)
      have hwc : w16 (8 * (col : Int)) = 8 * (col : Int) := w16_eq (by omega) (by omega)
      rw [hwr] at h1
      rw [hwc] at h2
      omega
  · rw [List.mem_singleton] at hmem
    exact DispEv.noConfusion hmem

/-- C10 (witness): the theorem at the concrete 20 x 13 display: a 2 x 1 tile
grid, with every buffer write inside the first 16 columns and 8 rows. -/
theorem engine_partial_tiles_never_written_witness :
    (8 * engineGridW 20 ≤ 20 ∧ (20 : Int) < 8 * engineGridW 20 + 8) ∧
    (8 * engineGridH 13 ≤ 13 ∧ (13 : Int) < 8 * engineGridH 13 + 8) ∧
    (∀ (clean : Nat → Nat → Bool) (ev : DispEv),
      ev ∈ displayEvents (engineGridW 20).toNat (engineGridH 13).toNat clean →
      ∀ bx byy : Int, ev = DispEv.buf bx byy →
        0 ≤ bx ∧ bx + 8 ≤ 8 * engineGridW 20 ∧ 0 ≤ byy ∧ byy + 8 ≤ 8 * engineGridH 13) :=
  engine_partial_tiles_never_written 20 13 (by omega) (by omega) (by omega) (by omega)

/-- The tile pool of the Engine, modelled by the identities of the tiles on
the free list plus a counter supplying the identity of the next freshly
allocated tile (a new tile pointer is distinct from every tile seen so far). -/
structure PoolSt where
  pool : List Nat
  next : Nat

/-- Engine.getTile from the source: reuse the last tile of the pool if there
is one, else allocate a fresh tile. -/
def getTile (s : PoolSt) : Nat × PoolSt :=
  match s.pool.getLast? with
  | some t => (t, ⟨s.pool.dropLast, s.next⟩)
  | none => (s.next, ⟨s.pool, s.next + 1⟩)

/-- Engine.putTile from the source: push the returned tile onto the pool. -/
def putTile (t : Nat) (s : PoolSt) : PoolSt := ⟨s.pool ++ [t], s.next⟩

/-- A borrow or return event on the tile pool. -/
inductive PoolEv where
  | get : Nat → PoolEv
  | put : Nat → PoolEv
deriving DecidableEq, Repr

/-- Replay a pool trace against a stack of currently borrowed tiles: a get
must be of a tile that is not currently borrowed, and a put must return the
most recently borrowed tile (strict LIFO). Returns the borrowed stack after
the trace, or none if the discipline is violated. -/
def replay : List Nat → List PoolEv → Option (List Nat)
  | B, [] => some B
  | B, .get x :: tr => if x ∈ B then none else replay (x :: B) tr
  | B, .put x :: tr =>
      match B with
      | [] => none
      | y :: B2 => if x = y then replay B2 tr else none

mutual
/-- The scene tree as the tile pool sees it: leaf objects (rectangles, lines)
do not touch the pool, a layer borrows one scratch tile, paints its children,
and returns the tile. -/
inductive Scene where
  | leaf : Scene
  | node : SceneForest → Scene
inductive SceneForest where
  | nil : SceneForest
  | cons : Scene → SceneForest → SceneForest
end

mutual
/-- The pool effect and pool trace of painting one object (Layer.paint for
layers: getTile, children in order, putTile). -/
def scenePaintPool : Scene → PoolSt → PoolSt × List PoolEv
  | .leaf, s => (s, [])
  | .node kids, s =>
      let g := getTile s
      let r := scenePaintForest kids g.2
      (putTile g.1 r.1, .get g.1 :: (r.2 ++ [.put g.1]))
/-- The pool effect and trace of painting a list of children in order. -/
def scenePaintForest : SceneForest → PoolSt → PoolSt × List PoolEv
  | .nil, s => (s, [])
  | .cons k ks, s =>
      let r1 := scenePaintPool k s
      let r2 := scenePaintForest ks r1.1
      (r2.1, r1.2 ++ r2.2)
end

/-- The pool invariant relative to the stack B of currently borrowed tiles
(including the destination buffers of the enclosing paints): the free list
holds no duplicates, all tile identities are older than the allocation
counter, and no pooled tile is currently borrowed. -/
def PoolInv (B : List Nat) (s : PoolSt) : Prop :=
  s.pool.Nodup ∧ (∀ i ∈ s.pool, i < s.next) ∧ (∀ i ∈ B, i < s.next) ∧
  (∀ i ∈ s.pool, i ∉ B)

theorem replay_append (B : List Nat) (tr1 tr2 : List PoolEv) :
    replay B (tr1 ++ tr2) = (replay B tr1).bind (fun B2 => replay B2 tr2) := by
  induction tr1 generalizing B with
  | nil => rfl
  | cons e tr ih =>
    cases e with
    | get x =>
      rw [List.cons_append]
      simp only [replay]
      by_cases hx : x ∈ B
      · rw [if_pos hx, if_pos hx]
        rfl
      · rw [if_neg hx, if_neg hx, ih]
    | put x =>
      rw [List.cons_append]
      simp only [replay]
      cases B with
      | nil => rfl
      | cons y B2 =>
        dsimp only
        by_cases hx : x = y
        · rw [if_pos hx, if_pos hx, ih]
        · rw [if_neg hx, if_neg hx]
          rfl

theorem getTile_spec (B : List Nat) (s : PoolSt) (h : PoolInv B s) :
    (getTile s).1 ∉ B ∧ (getTile s).1 ∉ (getTile s).2.pool ∧
    PoolInv ((getTile s).1 :: B) (getTile s).2 ∧
    (getTile s).2.pool.length + (if s.pool = [] then 0 else 1) = s.pool.length ∧
    s.next ≤ (getTile s).2.next ∧
    (getTile s).2.next + (if s.pool = [] then 0 else 1) = s.next + 1 ∧
    (getTile s).1 < (getTile s).2.next := by
  obtain ⟨hnd, hpn, hbn, hpb⟩ := h
  rcases hl : s.pool.getLast? with _ | t
  · have hemp : s.pool = [] := List.getLast?_eq_none_iff.mp hl
    have hgt : getTile s = (s.next, ⟨s.pool, s.next + 1⟩) := by
      unfold getTile
      rw [hl]
    rw [hgt, hemp]
    dsimp only
    refine ⟨fun hc => absurd (hbn _ hc) (by omega), List.not_mem_nil _, ?_, by simp,
      Nat.le_succ _, by simp, Nat.lt_succ_self _⟩
    refine ⟨List.nodup_nil, by simp, ?_, by simp⟩
    intro i hi
    rw [List.mem_cons] at hi
    rcases hi with hi | hi
    · rw [hi]
      exact Nat.lt_succ_self _
    · exact Nat.lt_succ_of_lt (hbn _ hi)
  · have htm : t ∈ s.pool := List.mem_of_mem_getLast? hl
    have hne : s.pool ≠ [] := by
      intro hc
      rw [hc] at htm
      exact absurd htm (List.not_mem_nil t)
    have hgt : getTile s = (t, ⟨s.pool.dropLast, s.next⟩) := by
      unfold getTile
      rw [hl]
    obtain ⟨hne2, hteq⟩ := List.mem_getLast?_eq_getLast (by rw [Option.mem_def]; exact hl)
    have hdecomp : s.pool.dropLast ++ [t] = s.pool := by
      rw [hteq]
      exact List.dropLast_append_getLast hne2
    have hnd2 : (s.pool.dropLast ++ [t]).Nodup := by rw [hdecomp]; exact hnd
    rw [List.nodup_append] at hnd2
    have htnd : t ∉ s.pool.dropLast := by
      intro hc
      exact hnd2.2.2 hc (List.mem_singleton_self t)
    have hlen : s.pool.length = s.pool.dropLast.length + 1 := by
      conv_lhs => rw [← hdecomp]
      rw [List.length_append, List.length_singleton]
    rw [hgt]
    dsimp only
    rw [if_neg hne]
    refine ⟨hpb t htm, htnd, ?_, by omega, by omega, by omega, hpn t htm⟩
    refine ⟨hnd2.1, ?_, ?_, ?_⟩
    · intro i hi
      exact hpn i (by rw [← hdecomp]; exact List.mem_append_left _ hi)
    · intro i hi
      rw [List.mem_cons] at hi
      rcases hi with hi | hi
      · rw [hi]
        exact hpn t htm
      · exact hbn _ hi
    · intro i hi
      have him : i ∈ s.pool := by rw [← hdecomp]; exact List.mem_append_left _ hi
      intro hc
      rw [List.mem_cons] at hc
      rcases hc with hc | hc
      · exact htnd (hc ▸ hi)
      · exact hpb i him hc

/-- What painting does to the pool, relative to the borrowed stack B: the free
list grows exactly by the number of fresh allocations (it is unchanged when
every borrow was served from the pool), the allocation counter never goes
back, the invariant is preserved, the trace replays against B (every borrow is
of a tile not currently borrowed, returns are strictly LIFO and balanced), and
tiles borrowed by enclosing frames are never touched. -/
def PaintSpec (B : List Nat) (s0 : PoolSt) (res : PoolSt × List PoolEv) : Prop :=
  res.1.pool.length + s0.next = s0.pool.length + res.1.next ∧
  s0.next ≤ res.1.next ∧
  PoolInv B res.1 ∧
  replay B res.2 = some B ∧
  (∀ x ∈ B, PoolEv.get x ∉ res.2 ∧ PoolEv.put x ∉ res.2)

mutual
theorem scenePaintPool_spec : ∀ (sc : Scene) (B : List Nat) (s : PoolSt),
    PoolInv B s → PaintSpec B s (scenePaintPool sc s)
  | .leaf, B, s, h => by
    rw [scenePaintPool]
    exact ⟨rfl, le_rfl, h, rfl, fun x hx => ⟨List.not_mem_nil _, List.not_mem_nil _⟩⟩
  | .node kids, B, s, h => by
    obtain ⟨hg1, hg2, hg3, hg4, hg5, hg6, hg7⟩ := getTile_spec B s h
    obtain ⟨hk1, hk2, hk3, hk4, hk5⟩ :=
      scenePaintForest_spec kids ((getTile s).1 :: B) (getTile s).2 hg3
    obtain ⟨hknd, hkpn, hkbn, hkpb⟩ := hk3
    rw [scenePaintPool]
    unfold PaintSpec
    dsimp only
    have hlen : (putTile (getTile s).1 (scenePaintForest kids (getTile s).2).1).pool.length =
        (scenePaintForest kids (getTile s).2).1.pool.length + 1 := by
      unfold putTile
      dsimp only
      rw [List.length_append, List.length_singleton]
    have hnext : (putTile (getTile s).1 (scenePaintForest kids (getTile s).2).1).next =
        (scenePaintForest kids (getTile s).2).1.next := rfl
    have htB : (getTile s).1 ∉ B := hg1
    have htpool : (getTile s).1 ∉ (scenePaintForest kids (getTile s).2).1.pool := by
      intro hc
      exact hkpb _ hc (List.mem_cons_self _ _)
    refine ⟨?_, ?_, ?_, ?_, ?_⟩
    · rw [hlen, hnext]
      omega
    · rw [hnext]
      omega
    · refine ⟨?_, ?_, ?_, ?_⟩
      · unfold putTile
        dsimp only
        rw [List.nodup_append]
        exact ⟨hknd, List.nodup_singleton _,
          fun a ha hb => htpool (List.mem_singleton.mp hb ▸ ha)⟩
      · unfold putTile
        dsimp only
        intro i hi
        rw [List.mem_append] at hi
        rcases hi with hi | hi
        · exact hkpn i hi
        · rw [List.mem_singleton] at hi
          subst hi
          exact lt_of_lt_of_le hg7 hk2
      · intro i hi
        rw [hnext]
        exact hkbn i (List.mem_cons_of_mem _ hi)
      · unfold putTile
        dsimp only
        intro i hi
        rw [List.mem_append] at hi
        rcases hi with hi | hi
        · exact fun hc => hkpb i hi (List.mem_cons_of_mem _ hc)
        · rw [List.mem_singleton] at hi
          subst hi
          exact htB
    · rw [replay, if_neg htB, replay_append, hk4]
      rw [Option.some_bind]
      rw [replay]
      rw [if_pos rfl]
      rfl
    · intro x hx
      have hne : (getTile s).1 ≠ x := fun hc => htB (hc ▸ hx)
      obtain ⟨hgx, hpx⟩ := hk5 x (List.mem_cons_of_mem _ hx)
      constructor
      · intro hc
        rw [List.mem_cons] at hc
        rcases hc with hc | hc
        · exact hne (PoolEv.get.inj hc).symm
        · rw [List.mem_append] at hc
          rcases hc with hc | hc
          · exact hgx hc
          · rw [List.mem_singleton] at hc
            exact PoolEv.noConfusion hc
      · intro hc
        rw [List.mem_cons] at hc
        rcases hc with hc | hc
        · exact PoolEv.noConfusion hc
        · rw [List.mem_append] at hc
          rcases hc with hc | hc
          · exact hpx hc
          · rw [List.mem_singleton] at hc
            exact hne (PoolEv.put.inj hc).symm
theorem scenePaintForest_spec : ∀ (f : SceneForest) (B : List Nat) (s : PoolSt),
    PoolInv B s → PaintSpec B s (scenePaintForest f s)
  | .nil, B, s, h => by
    rw [scenePaintForest]
    exact ⟨rfl, le_rfl, h, rfl, fun x hx => ⟨List.not_mem_nil _, List.not_mem_nil _⟩⟩
  | .cons k ks, B, s, h => by
    obtain ⟨h11, h12, h13, h14, h15⟩ := scenePaintPool_spec k B s h
    obtain ⟨h21, h22, h23, h24, h25⟩ :=
      scenePaintForest_spec ks B (scenePaintPool k s).1 h13
    rw [scenePaintForest]
    unfold PaintSpec
    dsimp only
    refine ⟨by omega, by omega, h23, ?_, ?_⟩
    · rw [replay_append, h14, Option.some_bind, h24]
    · intro x hx
      obtain ⟨hg1, hp1⟩ := h15 x hx
      obtain ⟨hg2, hp2⟩ := h25 x hx
      constructor
      · intro hc
        rw [List.mem_append] at hc
        rcases hc with hc | hc
        · exact hg1 hc
        · exact hg2 hc
      · intro hc
        rw [List.mem_append] at hc
        rcases hc with hc | hc
        · exact hp1 hc
        · exact hp2 hc
end

/-- C9 (counterexample): painting a single childless layer with an empty tile
pool returns the freshly allocated scratch tile into the pool, so the pool is
longer on return (length 1) than at entry (length 0). -/
theorem tilePool_length_counterexample :
    PoolInv [] ⟨[], 0⟩ ∧
    (⟨[], 0⟩ : PoolSt).pool.length = 0 ∧
    (scenePaintPool (Scene.node SceneForest.nil) ⟨[], 0⟩).1.pool.length = 1 := by
  refine ⟨⟨List.nodup_nil, ?_, ?_, ?_⟩, rfl, rfl⟩ <;> simp

/-- C9 (amended): during any (possibly nested) Layer.paint, the scratch tile
from getTile is distinct from every currently borrowed tile (including the
destination buffers of the enclosing paints, collected in B) and from the
remaining pool; the whole trace of pool operations replays against B with
strictly LIFO, balanced borrows; the scratch tile is returned by exactly one
putTile; and the pool length on return equals its length at entry plus the
number of freshly allocated tiles (so it is unchanged exactly when every
borrow was served from the pool). -/
theorem tilePool_balanced_exclusive (sc : Scene) (B : List Nat) (s : PoolSt)
    (h : PoolInv B s) :
    (scenePaintPool sc s).1.pool.length + s.next =
      s.pool.length + (scenePaintPool sc s).1.next ∧
    s.next ≤ (scenePaintPool sc s).1.next ∧
    replay B (scenePaintPool sc s).2 = some B ∧
    PoolInv B (scenePaintPool sc s).1 ∧
    (∀ kids, sc = Scene.node kids →
      (getTile s).1 ∉ B ∧ (getTile s).1 ∉ (getTile s).2.pool ∧
      (scenePaintPool sc s).2.count (PoolEv.put (getTile s).1) = 1) := by
  obtain ⟨h1, h2, h3, h4, h5⟩ := scenePaintPool_spec sc B s h
  refine ⟨h1, h2, h4, h3, ?_⟩
  intro kids hsc
  subst hsc
  obtain ⟨hg1, hg2, hg3, _⟩ := getTile_spec B s h
  obtain ⟨_, _, _, _, hk5⟩ :=
    scenePaintForest_spec kids ((getTile s).1 :: B) (getTile s).2 hg3
  refine ⟨hg1, hg2, ?_⟩
  rw [scenePaintPool]
  dsimp only
  rw [List.count_cons, List.count_append]
  have hz : (scenePaintForest kids (getTile s).2).2.count (PoolEv.put (getTile s).1) = 0 := by
    rw [List.count_eq_zero]
    exact (hk5 (getTile s).1 (List.mem_cons_self _ _)).2
  rw [hz]
  simp

/-- C9 (witness): the amended theorem at a layer with one nested empty layer,
an initial pool holding tile 5, and allocation counter 10. -/
theorem tilePool_balanced_exclusive_witness :
    (scenePaintPool (Scene.node (SceneForest.cons (Scene.node SceneForest.nil)
        SceneForest.nil)) ⟨[5], 10⟩).1.pool.length + 10 =
      (⟨[5], 10⟩ : PoolSt).pool.length +
        (scenePaintPool (Scene.node (SceneForest.cons (Scene.node SceneForest.nil)
          SceneForest.nil)) ⟨[5], 10⟩).1.next ∧
    10 ≤ (scenePaintPool (Scene.node (SceneForest.cons (Scene.node SceneForest.nil)
        SceneForest.nil)) ⟨[5], 10⟩).1.next ∧
    replay [] (scenePaintPool (Scene.node (SceneForest.cons (Scene.node SceneForest.nil)
        SceneForest.nil)) ⟨[5], 10⟩).2 = some [] ∧
    PoolInv [] (scenePaintPool (Scene.node (SceneForest.cons (Scene.node SceneForest.nil)
        SceneForest.nil)) ⟨[5], 10⟩).1 ∧
    (∀ kids, Scene.node (SceneForest.cons (Scene.node SceneForest.nil) SceneForest.nil) =
        Scene.node kids →
      (getTile ⟨[5], 10⟩).1 ∉ ([] : List Nat) ∧
      (getTile ⟨[5], 10⟩).1 ∉ (getTile ⟨[5], 10⟩).2.pool ∧
      (scenePaintPool (Scene.node (SceneForest.cons (Scene.node SceneForest.nil)
        SceneForest.nil)) ⟨[5], 10⟩).2.count (PoolEv.put (getTile ⟨[5], 10⟩).1) = 1) :=
  tilePool_balanced_exclusive
    (Scene.node (SceneForest.cons (Scene.node SceneForest.nil) SceneForest.nil)) [] ⟨[5], 10⟩
    ⟨by decide, by decide, by decide, by decide⟩
